import Mathlib

/-!
A shallow embedding of the dynamic GBWT index (src/dynamic_gbwt.cpp and
src/include/gbwt/files.h) in Lean 4, together with proofs about its
specification.  Machine integers are modelled as `Nat`; fatal errors
(std::exit) are modelled by `Option` results with `none` for a fatal exit.

The support classes (DynamicRecord, RunMerger, ByteCode, the Run codec and
Sequence) are declared in headers that are not part of the two source files;
those are modelled from the spec, as noted in their doc comments.
-/

set_option maxRecDepth 4000

namespace GBWT

/-- The endmarker symbol: node id 0. -/
def ENDMARKER : Nat := 0

/-- Sentinel for an invalid offset: the largest 64-bit value (gbwt utils). -/
def invalidOffset : Nat := 2 ^ 64 - 1

/-- Sentinel for an invalid node id (gbwt utils). -/
def invalidNode : Nat := 2 ^ 64 - 1

/-- Sentinel pair returned by the two-argument LF on out-of-range input. -/
def invalidEdge : Nat × Nat := (invalidNode, invalidOffset)

/-- Modelled from the spec: DynamicRecord (section 4.3): per-node record with
outgoing edges, incoming edges and a run-length encoded body.  `body_size` is
the total number of symbols in the body.  The class itself lives in a header
that is not among the source files. -/
structure DynamicRecord where
  body_size : Nat := 0
  body : List (Nat × Nat) := []
  incoming : List (Nat × Nat) := []
  outgoing : List (Nat × Nat) := []
  deriving DecidableEq, Repr, Inhabited

namespace DynamicRecord

/-- Number of outgoing edges. -/
def outdegree (r : DynamicRecord) : Nat := r.outgoing.length

/-- Number of incoming edges. -/
def indegree (r : DynamicRecord) : Nat := r.incoming.length

/-- Number of runs in the body. -/
def runs (r : DynamicRecord) : Nat := r.body.length

/-- Total number of symbols in this record (column height). -/
def size (r : DynamicRecord) : Nat := r.body_size

/-- Destination node of the outgoing edge with the given local rank. -/
def successor (r : DynamicRecord) (outrank : Nat) : Nat :=
  (r.outgoing.getD outrank (0, 0)).1

/-- Stored cumulative count offset of the outgoing edge with the given rank. -/
def offsetOf (r : DynamicRecord) (outrank : Nat) : Nat :=
  (r.outgoing.getD outrank (0, 0)).2

/-- Predecessor node of the incoming edge with the given rank. -/
def predecessor (r : DynamicRecord) (inrank : Nat) : Nat :=
  (r.incoming.getD inrank (0, 0)).1

/-- Modelled from the spec: linear search for the outgoing edge to a node;
returns `outdegree` when there is none. -/
def edgeTo (r : DynamicRecord) (node : Nat) : Nat :=
  r.outgoing.findIdx (fun e => e.1 = node)

/-- Modelled from the spec: first incoming rank whose predecessor is at least
`node`; returns `indegree` when there is none. -/
def findFirst (r : DynamicRecord) (node : Nat) : Nat :=
  r.incoming.findIdx (fun e => node ≤ e.1)

/-- Modelled from the spec: append a new incoming edge. -/
def addIncoming (r : DynamicRecord) (e : Nat × Nat) : DynamicRecord :=
  { r with incoming := r.incoming ++ [e] }

/-- Modelled from the spec: aggregate one occurrence of a predecessor into the
incoming edges, appending a fresh `(from, 1)` entry when it is absent. -/
def incrementList (inc : List (Nat × Nat)) (node : Nat) : List (Nat × Nat) :=
  match inc with
  | [] => [(node, 1)]
  | (p, c) :: rest =>
      if p = node then (p, c + 1) :: rest else (p, c) :: incrementList rest node

/-- Modelled from the spec: `increment(from)` on the incoming edges. -/
def increment (r : DynamicRecord) (node : Nat) : DynamicRecord :=
  { r with incoming := incrementList r.incoming node }

/-- Occurrences of rank `c` among the first `i` positions of a run list. -/
def rankInRuns (body : List (Nat × Nat)) (c : Nat) (i : Nat) : Nat :=
  match body with
  | [] => 0
  | (b, l) :: rest =>
      if i ≤ l then (if b = c then i else 0)
      else (if b = c then l else 0) + rankInRuns rest c (i - l)

/-- Rank stored at absolute position `i` of a run list, if any. -/
def rankAtPos (body : List (Nat × Nat)) (i : Nat) : Option Nat :=
  match body with
  | [] => none
  | (b, l) :: rest => if i < l then some b else rankAtPos rest (i - l)

/-- Modelled from the spec: local LF into a destination node, that is the
number of `to`-symbols among the first `i` positions plus the stored edge
offset; the invalid sentinel when the record has no edge to `dst`. -/
def recordLF2 (r : DynamicRecord) (i : Nat) (dst : Nat) : Nat :=
  let outrank := r.edgeTo dst
  if outrank ≥ r.outdegree then invalidOffset
  else r.offsetOf outrank + rankInRuns r.body outrank i

/-- Modelled from the spec: local LF at a position, giving the successor node
and the mapped position in its record. -/
def recordLF1 (r : DynamicRecord) (i : Nat) : Nat × Nat :=
  match rankAtPos r.body i with
  | none => invalidEdge
  | some c => (r.successor c, r.offsetOf c + rankInRuns r.body c i)

end DynamicRecord

/-- GBWT file header (src/include/gbwt/files.h). -/
structure GBWTHeader where
  tag : Nat := 0x6B376B37
  version : Nat := 2
  sequences : Nat := 0
  size : Nat := 0
  offset : Nat := 0
  alphabet_size : Nat := 0
  flags : Nat := 0
  deriving DecidableEq, Repr, Inhabited

/-- The dynamic GBWT index: header plus one record per effective node. -/
structure DynamicGBWT where
  header : GBWTHeader := {}
  bwt : List DynamicRecord := []
  deriving DecidableEq, Repr, Inhabited

namespace DynamicGBWT

/-- Alphabet size. -/
def sigma (X : DynamicGBWT) : Nat := X.header.alphabet_size

/-- Size of the effective alphabet. -/
def effective (X : DynamicGBWT) : Nat := X.header.alphabet_size - X.header.offset

/-- Total length of the indexed texts, endmarkers included. -/
def size (X : DynamicGBWT) : Nat := X.header.size

/-- Number of indexed sequences. -/
def sequences (X : DynamicGBWT) : Nat := X.header.sequences

/-- Modelled from the spec: an index is empty when its size is zero. -/
def isEmptyIndex (X : DynamicGBWT) : Bool := X.size = 0

/-- Compacted index of a node: the endmarker is compacted to 0, any other node
to `node - offset`. -/
def comp (X : DynamicGBWT) (node : Nat) : Nat :=
  if node = ENDMARKER then 0 else node - X.header.offset

/-- The record of a node, accessed through its compacted index. -/
def record (X : DynamicGBWT) (node : Nat) : DynamicRecord :=
  X.bwt.getD (X.comp node) default

/-- Replace the record of a node. -/
def setRecord (X : DynamicGBWT) (node : Nat) (r : DynamicRecord) : DynamicGBWT :=
  { X with bwt := X.bwt.set (X.comp node) r }

/-- Modelled from the spec: `count(node)` is the column height of the node,
the size of its record. -/
def count (X : DynamicGBWT) (node : Nat) : Nat := (X.record node).size

/-- Total number of runs in the index (src/dynamic_gbwt.cpp, runs()). -/
def totalRuns (X : DynamicGBWT) : Nat :=
  (X.bwt.map DynamicRecord.runs).sum

/-- Comparison of two indices (src/dynamic_gbwt.cpp, compare): the headers and
every record up to the effective alphabet size must be equal. -/
def compareGBWT (X Y : DynamicGBWT) : Bool :=
  decide (X.header = Y.header) &&
    (List.range X.effective).all
      (fun c => decide (X.bwt.getD c default = Y.bwt.getD c default))

/-- Global three-argument LF (src/dynamic_gbwt.cpp lines 599-618). -/
def LF3 (X : DynamicGBWT) (stfrom : Nat) (i : Nat) (dst : Nat) : Nat :=
  if dst ≥ X.sigma then invalidOffset
  else if stfrom ≥ X.sigma then X.count dst
  else
    let result := (X.record stfrom).recordLF2 i dst
    if result ≠ invalidOffset then result
    else
      let to_node := X.record dst
      let inrank := to_node.findFirst stfrom
      if inrank ≥ to_node.indegree then X.count dst
      else
        let next_from := X.record (to_node.predecessor inrank)
        next_from.offsetOf (next_from.edgeTo dst)

/-- Global two-argument LF (src/dynamic_gbwt.cpp lines 620-625). -/
def LF2 (X : DynamicGBWT) (stfrom : Nat) (i : Nat) : Nat × Nat :=
  if stfrom ≥ X.sigma then invalidEdge
  else (X.record stfrom).recordLF1 i

/-- The offset resize actually uses: the current offset is kept when the
index already has a real alphabet and the request would grow the offset, or
when the requested alphabet is degenerate (src/dynamic_gbwt.cpp lines
262-265). -/
def adjOffset (X : DynamicGBWT) (new_offset new_sigma : Nat) : Nat :=
  if (X.sigma > 1 ∧ new_offset > X.header.offset) ∨ new_sigma ≤ 1
  then X.header.offset else new_offset

/-- The alphabet size resize actually uses: the current one when it is larger
(src/dynamic_gbwt.cpp line 266). -/
def adjSigma (X : DynamicGBWT) (new_sigma : Nat) : Nat :=
  if X.sigma > new_sigma then X.sigma else new_sigma

/-- Resizing of the effective alphabet (src/dynamic_gbwt.cpp lines 255-296).
The fatal `std::exit` on an invalid offset/alphabet combination is modelled
as `none`. -/
def resize (X : DynamicGBWT) (new_offset new_sigma : Nat) : Option DynamicGBWT :=
  let no := adjOffset X new_offset new_sigma
  let ns := adjSigma X new_sigma
  if no > 0 ∧ no ≥ ns then none
  else if no ≠ X.header.offset ∨ ns ≠ X.sigma then
    let base := List.replicate (ns - no) (default : DynamicRecord)
    let b1 := if X.effective > 0 then base.set 0 (X.bwt.getD 0 default) else base
    let b2 := (List.range' 1 (X.effective - 1)).foldl
      (fun acc c => acc.set (c + X.header.offset - no) (X.bwt.getD c default)) b1
    some { header := { X.header with offset := no, alphabet_size := ns }, bwt := b2 }
  else some X

end DynamicGBWT

/-- Modelled from the spec: ByteCode write (section 4.1), with structural
fuel: base-128 varint, seven payload bits per byte, little-endian groups,
continuation bit set while more bytes follow. -/
def byteCodeWriteGo : Nat → Nat → List Nat
  | 0, v => [v % 128]
  | fuel + 1, v => if v < 128 then [v] else (v % 128 + 128) :: byteCodeWriteGo fuel (v / 128)

/-- Modelled from the spec: ByteCode write; the value itself is enough fuel. -/
def byteCodeWrite (v : Nat) : List Nat := byteCodeWriteGo v v

/-- Modelled from the spec: ByteCode read, consuming bytes from the front of
the list; `none` on truncated input. -/
def byteCodeRead (bytes : List Nat) : Option (Nat × List Nat) :=
  match bytes with
  | [] => none
  | b :: rest =>
      if b < 128 then some (b, rest)
      else
        match byteCodeRead rest with
        | some (v, rest2) => some (b - 128 + 128 * v, rest2)
        | none => none

/-- ByteCode read with the defaults the decoder uses on malformed input. -/
def byteCodeReadD (bytes : List Nat) : Nat × List Nat :=
  (byteCodeRead bytes).getD (0, [])

/-- Modelled from the spec: the run codec (section 4.2).  With a unary local
alphabet only `length - 1` is emitted; with a large alphabet the rank and the
residual length are varints; otherwise small pairs pack into one byte under a
fixed threshold `256 / sigma`, the residual length continuing as a varint.
The precise packing is an implementation detail left open by the spec; this
is one deterministic, self-delimiting choice. -/
def runWrite (sigma : Nat) (run : Nat × Nat) : List Nat :=
  if sigma = 1 then byteCodeWrite (run.2 - 1)
  else if 256 / sigma = 0 then byteCodeWrite run.1 ++ byteCodeWrite (run.2 - 1)
  else if run.2 < 256 / sigma then [run.1 + sigma * (run.2 - 1)]
  else (run.1 + sigma * (256 / sigma - 1)) :: byteCodeWrite (run.2 - 256 / sigma)

/-- Modelled from the spec: decoding one run, mirroring `runWrite`. -/
def runRead (sigma : Nat) (bytes : List Nat) : Option ((Nat × Nat) × List Nat) :=
  if sigma = 1 then
    match byteCodeRead bytes with
    | some (v, rest) => some ((0, v + 1), rest)
    | none => none
  else if 256 / sigma = 0 then
    match byteCodeRead bytes with
    | some (c, rest) =>
        match byteCodeRead rest with
        | some (v, rest2) => some ((c, v + 1), rest2)
        | none => none
    | none => none
  else
    match bytes with
    | [] => none
    | b :: rest =>
        let c := b % sigma
        let l := b / sigma + 1
        if l < 256 / sigma then some ((c, l), rest)
        else
          match byteCodeRead rest with
          | some (v, rest2) => some ((c, 256 / sigma + v), rest2)
          | none => none

/-- Decoding a record body: read runs until the byte slice is exhausted
(src/dynamic_gbwt.cpp lines 165-174).  The fuel is the slice length; each
read consumes at least one byte. -/
def decodeBody (sigma : Nat) : Nat → List Nat → List (Nat × Nat)
  | 0, _ => []
  | _, [] => []
  | fuel + 1, bytes =>
      match runRead sigma bytes with
      | none => []
      | some (run, rest) => run :: decodeBody sigma fuel rest

/-- Per-record byte encoding (src/dynamic_gbwt.cpp lines 96-109): varint
outdegree, varint destination and offset per outgoing edge, and, when the
outdegree is positive, the run-coded body. -/
def encodeRecord (r : DynamicRecord) : List Nat :=
  byteCodeWrite r.outdegree ++
    (r.outgoing.map (fun e => byteCodeWrite e.1 ++ byteCodeWrite e.2)).flatten ++
    (if r.outdegree > 0 then (r.body.map (runWrite r.outdegree)).flatten else [])

/-- Reading back the outgoing edges of one record. -/
def readEdges : Nat → List Nat → List (Nat × Nat) × List Nat
  | 0, bytes => ([], bytes)
  | n + 1, bytes =>
      let (a, b1) := byteCodeReadD bytes
      let (b, b2) := byteCodeReadD b1
      let (rest, b3) := readEdges n b2
      ((a, b) :: rest, b3)

/-- Decoding one record from its byte slice (src/dynamic_gbwt.cpp lines
143-175): outdegree, outgoing edges, then the body with its total length. -/
def decodeRecord (chunk : List Nat) : DynamicRecord :=
  let (d, b1) := byteCodeReadD chunk
  let (out, b2) := readEdges d b1
  let body := if d > 0 then decodeBody d b2.length b2 else []
  { body_size := (body.map Prod.snd).sum, body := body, incoming := [], outgoing := out }

/-- The serialized index: the header, the per-record starting offsets (the
set bits of the sparse bitvector) and the concatenated byte body.  The sparse
bitvector with select is an opaque collaborator; its content is exactly the
list of starting offsets. -/
structure SerializedGBWT where
  header : GBWTHeader
  offsets : List Nat
  bytes : List Nat
  deriving DecidableEq, Repr

/-- Starting offsets of a list of chunks inside their concatenation. -/
def chunkStarts (chunks : List (List Nat)) : List Nat :=
  (List.range chunks.length).map
    (fun i => ((chunks.take i).map List.length).sum)

namespace DynamicGBWT

/-- Serialization (src/dynamic_gbwt.cpp lines 81-126): encode each record in
compacted order, record each starting offset, and emit the header, the offset
index and the concatenated bytes. -/
def serializeGBWT (X : DynamicGBWT) : SerializedGBWT :=
  let chunks := (List.range X.effective).map
    (fun c => encodeRecord (X.bwt.getD c default))
  { header := X.header, offsets := chunkStarts chunks, bytes := chunks.flatten }

/-- Rebuilding the incoming edges after loading (src/dynamic_gbwt.cpp lines
177-191): for every record and every outgoing rank whose successor is not the
endmarker, add an incoming edge `(comp, count)` to the successor, where
`count` sums the run lengths with that rank. -/
def rebuildIncoming (X : DynamicGBWT) : DynamicGBWT :=
  (List.range X.effective).foldl
    (fun acc c =>
      let cur := acc.bwt.getD c default
      (List.range cur.outdegree).foldl
        (fun acc2 outrank =>
          if cur.successor outrank ≠ ENDMARKER then
            let cnt := ((cur.body.filter (fun run => run.1 = outrank)).map Prod.snd).sum
            acc2.setRecord (cur.successor outrank)
              ((acc2.record (cur.successor outrank)).addIncoming (c, cnt))
          else acc2)
        acc)
    X

/-- Loading (src/dynamic_gbwt.cpp lines 128-192): read the header, slice the
byte body at the stored offsets, decode each record, then rebuild the
incoming edges. -/
def loadGBWT (S : SerializedGBWT) : DynamicGBWT :=
  let eff := S.header.alphabet_size - S.header.offset
  let recs := (List.range eff).map (fun c =>
    let start := S.offsets.getD c 0
    let stop := if c + 1 < eff then S.offsets.getD (c + 1) 0 else S.bytes.length
    decodeRecord ((S.bytes.drop start).take (stop - start)))
  rebuildIncoming { header := S.header, bwt := recs }

end DynamicGBWT

/-- Modelled from the spec: a sequence being inserted (section 4.7).  It is
created at the endmarker record; its `offset` starts as its id, the number of
sequences present when it was created, because new sequences are appended at
the end of the endmarker record. -/
structure Sequence where
  id : Nat
  curr : Nat
  next : Nat
  offset : Nat
  pos : Nat
  deriving DecidableEq, Repr, Inhabited

/-- Modelled from the spec: the sequence constructor used by text insertion,
starting at the endmarker with the text position of its first symbol. -/
def Sequence.ofText (text : List Nat) (i : Nat) (seq_id : Nat) : Sequence :=
  { id := seq_id, curr := ENDMARKER, next := text.getD i 0, offset := seq_id, pos := i }

/-- Modelled from the spec: the sequence constructor used by merging, starting
at the endmarker with a position inside the source index. -/
def Sequence.ofNode (node : Nat) (seq_id : Nat) (source_pos : Nat) : Sequence :=
  { id := seq_id, curr := ENDMARKER, next := node, offset := seq_id, pos := source_pos }

/-- Modelled from the spec: RunMerger (section 4.4): an append-only builder
for a new record body holding the committed runs, the pending accumulator
run, per-rank cumulative counts and the total size. -/
structure RunMerger where
  total_size : Nat := 0
  runs : List (Nat × Nat) := []
  accumulator : Nat × Nat := (0, 0)
  counts : List Nat := []
  deriving DecidableEq, Repr

namespace RunMerger

/-- A fresh merger over a local alphabet of the given width. -/
def init (sigma : Nat) : RunMerger := { counts := List.replicate sigma 0 }

/-- Symbols written so far. -/
def size (m : RunMerger) : Nat := m.total_size

/-- Extend the counts by one fresh zero for a newly added edge. -/
def addEdge (m : RunMerger) : RunMerger := { m with counts := m.counts ++ [0] }

/-- Insert a run, merging with the pending accumulator when the rank
matches, committing the accumulator otherwise. -/
def insertRun (m : RunMerger) (run : Nat × Nat) : RunMerger :=
  let m1 :=
    if m.accumulator.2 ≠ 0 ∧ m.accumulator.1 = run.1 then
      { m with accumulator := (m.accumulator.1, m.accumulator.2 + run.2) }
    else
      { m with
        runs := if m.accumulator.2 ≠ 0 then m.runs ++ [m.accumulator] else m.runs,
        accumulator := run }
  { m1 with
    total_size := m1.total_size + run.2,
    counts := m1.counts.set run.1 (m1.counts.getD run.1 0 + run.2) }

/-- Commit the pending accumulator run. -/
def flush (m : RunMerger) : RunMerger :=
  if m.accumulator.2 ≠ 0 then
    { m with runs := m.runs ++ [m.accumulator], accumulator := (0, 0) }
  else m

end RunMerger

/-- Total length of a run list. -/
def runsTotal (l : List (Nat × Nat)) : Nat := (l.map Prod.snd).sum

/-- A record whose stored size agrees with its body. -/
def recordSized (r : DynamicRecord) : Prop := r.body_size = runsTotal r.body

/-- The body fields of a record, unaffected by edge bookkeeping. -/
def recBodyData (r : DynamicRecord) : Nat × List (Nat × Nat) :=
  (r.body_size, r.body)

/-- The current and next node of a sequence. -/
def seqCN (s : Sequence) : Nat × Nat := (s.curr, s.next)

/-- Total stored size of all records. -/
def sizesTotal (X : DynamicGBWT) : Nat := (X.bwt.map DynamicRecord.size).sum

/-- A merger whose running total agrees with its committed and pending
runs. -/
def mergerOK (m : RunMerger) : Prop :=
  m.total_size = runsTotal m.runs + m.accumulator.2

/-- Pull runs from the old body into the merger until its size reaches the
target, splitting the last pulled run when needed (src/dynamic_gbwt.cpp lines
400-409).  Returns the merger and the runs still unconsumed. -/
def pullRuns : RunMerger → List (Nat × Nat) → Nat → RunMerger × List (Nat × Nat)
  | m, [], _ => (m, [])
  | m, (c, l) :: rest, target =>
      if m.size ≥ target then (m, (c, l) :: rest)
      else if l ≤ target - m.size then pullRuns (m.insertRun (c, l)) rest target
      else (m.insertRun (c, target - m.size), (c, l - (target - m.size)) :: rest)

/-- State of the splice sweep over a single record: the rest of the index,
the working copy of the current record, its unconsumed old runs and the
merger building the new body. -/
structure SpliceSt where
  X : DynamicGBWT
  wrec : DynamicRecord
  rem : List (Nat × Nat)
  m : RunMerger

/-- One sequence of a splice group (src/dynamic_gbwt.cpp lines 392-417): add
the outgoing edge when missing, pull old runs up to the splice offset, record
the local rank of the new symbol as the new sequence offset, write the unit
run, and update the incoming edges of the successor.  A successor equal to
the current node aliases the working record copy. -/
def spliceOne (curr : Nat) (st : SpliceSt) (s : Sequence) : SpliceSt × Sequence :=
  let outrank := st.wrec.edgeTo s.next
  let recm :=
    if outrank ≥ st.wrec.outdegree then
      ({ st.wrec with outgoing := st.wrec.outgoing ++ [(s.next, 0)] }, st.m.addEdge)
    else (st.wrec, st.m)
  let pulled := pullRuns recm.2 st.rem s.offset
  let newOff := pulled.1.counts.getD outrank 0
  let m3 := pulled.1.insertRun (outrank, 1)
  let xr :=
    if s.next ≠ ENDMARKER then
      if s.next = curr then (st.X, recm.1.increment curr)
      else (st.X.setRecord s.next ((st.X.record s.next).increment curr), recm.1)
    else (st.X, recm.1)
  (⟨xr.1, xr.2, pulled.2, m3⟩, { s with offset := newOff })

/-- Commit an open splice group (src/dynamic_gbwt.cpp lines 418-422 and
swapBody, lines 247-253): flush the rest of the old body into the merger and
swap the new body into the record. -/
def finishGroup (curr : Nat) (st : SpliceSt) : DynamicGBWT :=
  let mFinal := (st.rem.foldl (fun m run => m.insertRun run) st.m).flush
  st.X.setRecord curr
    { st.wrec with body := mFinal.runs, body_size := mFinal.total_size }

/-- Open a fresh splice group on the record of `curr` and process its first
sequence (src/dynamic_gbwt.cpp lines 388-391). -/
def openGroup (X : DynamicGBWT) (s : Sequence) : SpliceSt × Sequence :=
  let rec0 := X.record s.curr
  spliceOne s.curr ⟨X, rec0, rec0.body, RunMerger.init rec0.outdegree⟩ s

/-- The splice sweep: walk the sequences in order, extending the open group
while the current node repeats and committing it when it changes
(src/dynamic_gbwt.cpp lines 386-423). -/
def spliceWalk (curr : Nat) (st : SpliceSt) (acc : List Sequence) :
    List Sequence → DynamicGBWT × List Sequence
  | [] => (finishGroup curr st, acc)
  | s :: rest =>
      if s.curr = curr then
        let q := spliceOne curr st s
        spliceWalk curr q.1 (acc ++ [q.2]) rest
      else
        let q := openGroup (finishGroup curr st) s
        spliceWalk s.curr q.1 (acc ++ [q.2]) rest

/-- The splice sweep over all sequences (src/dynamic_gbwt.cpp lines
386-423). -/
def spliceAll (X : DynamicGBWT) : List Sequence → DynamicGBWT × List Sequence
  | [] => (X, [])
  | s :: rest =>
      let q := openGroup X s
      spliceWalk s.curr q.1 [q.2] rest

/-- Strict lexicographic order on the sort key `(next, curr, offset)`. -/
def seqKeyLT (a b : Sequence) : Bool :=
  decide (a.next < b.next ∨ (a.next = b.next ∧ (a.curr < b.curr ∨
    (a.curr = b.curr ∧ a.offset < b.offset))))

/-- Stable insertion of a sequence: walk past strictly smaller keys only, so
that earlier sequences stay before later ones with equal keys. -/
def insertSorted (x : Sequence) : List Sequence → List Sequence
  | [] => [x]
  | y :: ys => if seqKeyLT y x then y :: insertSorted x ys else x :: y :: ys

/-- The stable between-iteration sort by `(next, curr, offset)`
(src/dynamic_gbwt.cpp line 432). -/
def sortSeqs (l : List Sequence) : List Sequence := l.foldr insertSorted []

/-- Rebuild the outgoing edge offsets toward one node by walking its incoming
edges in order (src/dynamic_gbwt.cpp lines 450-458). -/
def rebuildFor (X : DynamicGBWT) (nx : Nat) : DynamicGBWT :=
  ((X.record nx).incoming.foldl
    (fun (p : DynamicGBWT × Nat) ie =>
      let pred := p.1.record ie.1
      let k := pred.edgeTo nx
      let pred1 := { pred with outgoing := pred.outgoing.set k ((pred.outgoing.getD k (0, 0)).1, p.2) }
      (p.1.setRecord ie.1 pred1, p.2 + ie.2))
    (X, 0)).1

/-- Rebuild the outgoing edge offsets for each distinct `next` node among the
remaining sequences (src/dynamic_gbwt.cpp lines 446-458). -/
def rebuildOffsets (X : DynamicGBWT) (seqs : List Sequence) : DynamicGBWT :=
  (seqs.foldl
    (fun (p : DynamicGBWT × Nat) s =>
      if s.next = p.2 then p else (rebuildFor p.1 s.next, s.next))
    (X, X.sigma)).1

/-- Convert each sequence offset from a rank within the current record to a
position in the next record (src/dynamic_gbwt.cpp lines 464-468). -/
def translateOffsets (X : DynamicGBWT) (seqs : List Sequence) : List Sequence :=
  seqs.map (fun s =>
    let cur := X.record s.curr
    { s with offset := s.offset + cur.offsetOf (cur.edgeTo s.next) })

/-- Text source: advance every position by one (src/dynamic_gbwt.cpp lines
298-302). -/
def nextPositionText (seqs : List Sequence) : List Sequence :=
  seqs.map (fun s => { s with pos := s.pos + 1 })

/-- Text source: rotate to the next column, reading the new successor from
the text (src/dynamic_gbwt.cpp lines 327-331). -/
def advancePositionText (text : List Nat) (seqs : List Sequence) : List Sequence :=
  seqs.map (fun s => { s with curr := s.next, next := text.getD s.pos 0 })

/-- The batched insertion engine (the gbwt::insert template,
src/dynamic_gbwt.cpp lines 367-471), parameterized over the two source
adapter operations and supplied with fuel; `none` means the fuel ran out. -/
def insertLoop (nextPos advPos : List Sequence → List Sequence) :
    Nat → DynamicGBWT → List Sequence → Nat → Option (Nat × DynamicGBWT)
  | 0, _, _, _ => none
  | fuel + 1, X, seqs, iterations =>
      let it := iterations + 1
      let p := spliceAll X seqs
      let X2 : DynamicGBWT :=
        { p.1 with header := { p.1.header with size := p.1.header.size + p.2.length } }
      let seqs4 := (sortSeqs (nextPos p.2)).dropWhile (fun s => s.next = ENDMARKER)
      if seqs4.isEmpty then some (it, X2)
      else
        let X3 := rebuildOffsets X2 seqs4
        let seqs6 := advPos (translateOffsets X3 seqs4)
        insertLoop nextPos advPos fuel X3 seqs6 it

/-- Stable insertion sort of an edge list by its first component, used by the
recode normalization. -/
def insertEdge (x : Nat × Nat) : List (Nat × Nat) → List (Nat × Nat)
  | [] => [x]
  | y :: ys => if y.1 < x.1 then y :: insertEdge x ys else x :: y :: ys

/-- Stable sort of an edge list by destination or predecessor. -/
def sortEdges (l : List (Nat × Nat)) : List (Nat × Nat) := l.foldr insertEdge []

/-- Coalesce adjacent runs with equal ranks. -/
def coalesce : List (Nat × Nat) → List (Nat × Nat)
  | [] => []
  | (c, l) :: rest =>
      match coalesce rest with
      | [] => [(c, l)]
      | (c2, l2) :: rest2 =>
          if c = c2 then (c, l + l2) :: rest2 else (c, l) :: (c2, l2) :: rest2

/-- Modelled from the spec: `recode()` (section 4.3): stably sort the
outgoing edges by destination, remap every body rank accordingly, coalesce
adjacent equal runs, and sort the incoming edges by predecessor. -/
def DynamicRecord.recode (r : DynamicRecord) : DynamicRecord :=
  let sortedOut := sortEdges r.outgoing
  { body_size := r.body_size,
    body := coalesce (r.body.map
      (fun run => (sortedOut.findIdx (fun e => e.1 = r.successor run.1), run.2))),
    incoming := sortEdges r.incoming,
    outgoing := sortedOut }

/-- Recode every record (src/dynamic_gbwt.cpp lines 353-358). -/
def DynamicGBWT.recodeAll (X : DynamicGBWT) : DynamicGBWT :=
  { X with bwt := X.bwt.map DynamicRecord.recode }

/-- The sequences created by one pass over the text (src/dynamic_gbwt.cpp
lines 491-505): one per maximal segment between endmarkers. -/
def buildSeqsAux : List Nat → Nat → Bool → Nat → List Sequence
  | [], _, _, _ => []
  | t :: rest, i, seq_start, idn =>
      if seq_start then
        { id := idn, curr := ENDMARKER, next := t, offset := idn, pos := i } ::
          buildSeqsAux rest (i + 1) (t = ENDMARKER) (idn + 1)
      else buildSeqsAux rest (i + 1) (t = ENDMARKER) idn

/-- Total distance from each sequence position to the end of the text; the
termination measure of the text-source engine. -/
def seqMeasure (text : List Nat) (seqs : List Sequence) : Nat :=
  (seqs.map (fun s => text.length - s.pos)).sum

/-- Fuel sufficient for the text-source engine: the measure plus one. -/
def textFuel (text : List Nat) (seqs : List Sequence) : Nat :=
  seqMeasure text seqs + 1

/-- The part of a sequence the splice sweep never changes. -/
def seqShape (s : Sequence) : Nat × Nat × Nat × Nat := (s.id, s.curr, s.next, s.pos)

/-- The smallest real node of the text combined with the current effective
range (src/dynamic_gbwt.cpp lines 492, 503). -/
def textMin (X : DynamicGBWT) (text : List Nat) : Nat :=
  text.foldl (fun m t => if t ≠ ENDMARKER then min m t else m)
    (if X.isEmptyIndex then 2 ^ 64 - 1 else X.header.offset + 1)

/-- The largest node of the text combined with the current effective range
(src/dynamic_gbwt.cpp lines 493, 504). -/
def textMax (X : DynamicGBWT) (text : List Nat) : Nat :=
  text.foldl (fun m t => max m t) (if X.isEmptyIndex then 0 else X.sigma - 1)

/-- The minimum actually used: 1 when there are no real nodes
(src/dynamic_gbwt.cpp line 510). -/
def textMinF (X : DynamicGBWT) (text : List Nat) : Nat :=
  if textMax X text = 0 then 1 else textMin X text

namespace DynamicGBWT

/-- The sequences one insert call creates (src/dynamic_gbwt.cpp lines
491-505). -/
def insertSeqs (X : DynamicGBWT) (text : List Nat) : List Sequence :=
  buildSeqsAux text 0 true X.sequences

/-- The index with the sequence count already bumped, as it is before the
resize (src/dynamic_gbwt.cpp line 500). -/
def insertX1 (X : DynamicGBWT) (text : List Nat) : DynamicGBWT :=
  { X with header := { X.header with
      sequences := X.header.sequences + (insertSeqs X text).length } }

/-- Top-level text insertion (src/dynamic_gbwt.cpp lines 475-522): empty text
returns unchanged; a text not ending with the endmarker exits fatally
(`none`, before any state is touched); otherwise create the sequences,
resize, run the engine and recode. -/
def insertText (X : DynamicGBWT) (text : List Nat) : Option DynamicGBWT :=
  if text.isEmpty then some X
  else if text.getLastD 0 ≠ ENDMARKER then none
  else
    match (insertX1 X text).resize (textMinF X text - 1) (textMax X text + 1) with
    | none => none
    | some X2 =>
        match insertLoop nextPositionText (advancePositionText text)
            (textFuel text (insertSeqs X text)) X2 (insertSeqs X text) 0 with
        | none => none
        | some r => some r.2.recodeAll

end DynamicGBWT

/-- Index source: walk the record body forward, accumulating per-rank counts
into the outgoing copy, while the cumulative offset has not passed the
target position (src/dynamic_gbwt.cpp lines 314-320). -/
def idxAdvance : List (Nat × Nat) → Nat → Nat → List (Nat × Nat) → Nat →
    List (Nat × Nat) × Nat × Nat × List (Nat × Nat)
  | [], rank, off, res, _ => ([], rank, off, res)
  | (c, l) :: rest, rank, off, res, pos =>
      if off ≤ pos then
        idxAdvance rest c (off + l)
          (res.set c ((res.getD c (0, 0)).1, (res.getD c (0, 0)).2 + l)) pos
      else ((c, l) :: rest, rank, off, res)

/-- Index source: the walk state at the start of a cluster, after consuming
the first body run (src/dynamic_gbwt.cpp lines 311-313). -/
def idxInit (crec : DynamicRecord) :
    List (Nat × Nat) × Nat × Nat × List (Nat × Nat) :=
  match crec.body with
  | [] => ([], 0, 0, crec.outgoing)
  | (c0, l0) :: rest0 =>
      (rest0, c0, l0, crec.outgoing.set c0
        ((crec.outgoing.getD c0 (0, 0)).1, (crec.outgoing.getD c0 (0, 0)).2 + l0))

/-- Index source: translate one sequence position through the walk state
(src/dynamic_gbwt.cpp line 321). -/
def nextPosStep (w : List (Nat × Nat) × Nat × Nat × List (Nat × Nat))
    (s : Sequence) :
    (List (Nat × Nat) × Nat × Nat × List (Nat × Nat)) × Sequence :=
  let w2 := idxAdvance w.1 w.2.1 w.2.2.1 w.2.2.2 s.pos
  (w2, { s with pos := (w2.2.2.2.getD w2.2.1 (0, 0)).2 - (w2.2.2.1 - s.pos) })

/-- Index source `nextPosition` sweep, restarting the walk whenever the
current node changes (src/dynamic_gbwt.cpp lines 304-325). -/
def nextPosWalk (src : DynamicGBWT) :
    Nat → (List (Nat × Nat) × Nat × Nat × List (Nat × Nat)) → List Sequence →
    List Sequence → List Sequence
  | _, _, acc, [] => acc
  | curr, w, acc, s :: rest =>
      if s.curr = curr then
        let q := nextPosStep w s
        nextPosWalk src curr q.1 (acc ++ [q.2]) rest
      else
        let q := nextPosStep (idxInit (src.record s.curr)) s
        nextPosWalk src s.curr q.1 (acc ++ [q.2]) rest

/-- Index source `nextPosition` (src/dynamic_gbwt.cpp lines 304-325). -/
def nextPositionIndex (src : DynamicGBWT) : List Sequence → List Sequence
  | [] => []
  | s :: rest =>
      let q := nextPosStep (idxInit (src.record s.curr)) s
      nextPosWalk src s.curr q.1 [q.2] rest

/-- Index source: walk a body forward while the cumulative offset has not
passed the target position (src/dynamic_gbwt.cpp line 346). -/
def walkTo : List (Nat × Nat) → Nat → Nat → Nat → List (Nat × Nat) × Nat × Nat
  | [], rank, off, _ => ([], rank, off)
  | (c, l) :: rest, rank, off, pos =>
      if off ≤ pos then walkTo rest c (off + l) pos
      else ((c, l) :: rest, rank, off)

/-- Index source: the walk state at the start of an advance cluster
(src/dynamic_gbwt.cpp lines 341-342). -/
def advInit (crec : DynamicRecord) : List (Nat × Nat) × Nat × Nat :=
  match crec.body with
  | [] => ([], 0, 0)
  | (c0, l0) :: rest0 => (rest0, c0, l0)

/-- Index source: rotate one sequence and read its new successor from the
source record (src/dynamic_gbwt.cpp lines 345-347). -/
def advPosStep (crec : DynamicRecord) (w : List (Nat × Nat) × Nat × Nat)
    (s : Sequence) : (List (Nat × Nat) × Nat × Nat) × Sequence :=
  let w2 := walkTo w.1 w.2.1 w.2.2 s.pos
  (w2, { s with curr := s.next, next := crec.successor w2.2.1 })

/-- Index source `advancePosition` sweep over adjacent same-`next` clusters
(src/dynamic_gbwt.cpp lines 333-351). -/
def advPosWalk (src : DynamicGBWT) :
    Nat → DynamicRecord → (List (Nat × Nat) × Nat × Nat) → List Sequence →
    List Sequence → List Sequence
  | _, _, _, acc, [] => acc
  | nxt, crec, w, acc, s :: rest =>
      if s.next = nxt then
        let q := advPosStep crec w s
        advPosWalk src nxt crec q.1 (acc ++ [q.2]) rest
      else
        let crec2 := src.record s.next
        let q := advPosStep crec2 (advInit crec2) s
        advPosWalk src s.next crec2 q.1 (acc ++ [q.2]) rest

/-- Index source `advancePosition` (src/dynamic_gbwt.cpp lines 333-351). -/
def advancePositionIndex (src : DynamicGBWT) : List Sequence → List Sequence
  | [] => []
  | s :: rest =>
      let crec := src.record s.next
      let q := advPosStep crec (advInit crec) s
      advPosWalk src s.next crec q.1 [q.2] rest

/-- Build one batch of up to `limit - src_off` sequences from the source
endmarker body (src/dynamic_gbwt.cpp lines 562-572); the fuel bounds the
loop, one unit per consumed run or created sequence. -/
def makeBatch (em : DynamicRecord) :
    Nat → List (Nat × Nat) → Nat → Nat → Nat → Nat → List Sequence →
    List Sequence × List (Nat × Nat) × Nat × Nat × Nat
  | 0, rem, run_off, src_off, _, idn, acc => (acc, rem, run_off, src_off, idn)
  | fuel + 1, rem, run_off, src_off, limit, idn, acc =>
      if src_off < limit then
        match rem with
        | [] => (acc, [], run_off, src_off, idn)
        | (c, l) :: rest =>
            if run_off ≥ l then makeBatch em fuel rest 0 src_off limit idn acc
            else
              makeBatch em fuel ((c, l) :: rest) (run_off + 1) (src_off + 1)
                limit (idn + 1)
                (acc ++ [Sequence.ofNode (em.successor c) idn src_off])
      else (acc, rem, run_off, src_off, idn)

/-- The batch loop of merging (src/dynamic_gbwt.cpp lines 556-584), with fuel
bounding the number of batches. -/
def mergeLoop (src : DynamicGBWT) (em : DynamicRecord) (bs : Nat) :
    Nat → DynamicGBWT → List (Nat × Nat) → Nat → Nat → Option DynamicGBWT
  | 0, _, _, _, _ => none
  | fuel + 1, X, rem, run_off, src_off =>
      if src_off < src.sequences then
        let limit := min (src_off + bs) src.sequences
        let b := makeBatch em (rem.length + (limit - src_off)) rem run_off src_off limit X.sequences []
        let X1 : DynamicGBWT :=
          { X with header := { X.header with sequences := X.header.sequences + b.1.length } }
        match insertLoop (nextPositionIndex src) (advancePositionIndex src)
            (src.size + 1) X1 b.1 0 with
        | none => none
        | some r => mergeLoop src em bs fuel r.2 b.2.1 b.2.2.1 b.2.2.2.1
      else some X

/-- Top-level merge (src/dynamic_gbwt.cpp lines 526-595): early-outs for an
empty source or an empty receiver, then resize, batched insertion with the
source index as the input, and a final recode. -/
def DynamicGBWT.mergeGBWT (X : DynamicGBWT) (src : DynamicGBWT)
    (batch_size : Nat) : Option DynamicGBWT :=
  if src.isEmptyIndex then some X
  else if X.isEmptyIndex then some src
  else
    let bs := if batch_size = 0 then src.sequences else batch_size
    match X.resize src.header.offset src.sigma with
    | none => none
    | some X1 =>
        let em := src.record ENDMARKER
        match mergeLoop src em bs (src.sequences + 1) X1 em.body 0 0 with
        | none => none
        | some X2 => some X2.recodeAll


/-- Invariant I7 together with its per-record strengthening: every record
size agrees with the run lengths of its body, the header size equals the
total record size, and the latter equals the total run length. -/
def sizeInvariant (X : DynamicGBWT) : Prop :=
  (∀ r ∈ X.bwt, recordSized r) ∧
  X.header.size = sizesTotal X ∧
  sizesTotal X = (X.bwt.map (fun r => runsTotal r.body)).sum

/-- Structural well-formedness of an index: the record table covers exactly
the effective alphabet, the offset invariant holds, every outgoing edge
stays inside the alphabet, and a non-empty index has a non-empty alphabet. -/
def wfIndex (X : DynamicGBWT) : Prop :=
  X.bwt.length = X.effective ∧
  (X.header.offset = 0 ∨ X.header.offset < X.sigma) ∧
  (∀ r ∈ X.bwt, ∀ e ∈ r.outgoing, e.1 < X.sigma) ∧
  (0 < X.header.size → 0 < X.sigma)

/-- The size bookkeeping predicates are all decidable, so that concrete
indices can be checked by evaluation. -/
instance (r : DynamicRecord) : Decidable (recordSized r) :=
  inferInstanceAs (Decidable (r.body_size = runsTotal r.body))

instance (X : DynamicGBWT) : Decidable (sizeInvariant X) :=
  inferInstanceAs (Decidable ((∀ r ∈ X.bwt, recordSized r) ∧
    X.header.size = sizesTotal X ∧
    sizesTotal X = (X.bwt.map (fun r => runsTotal r.body)).sum))

instance (X : DynamicGBWT) : Decidable (wfIndex X) :=
  inferInstanceAs (Decidable (X.bwt.length = X.effective ∧
    (X.header.offset = 0 ∨ X.header.offset < X.sigma) ∧
    (∀ r ∈ X.bwt, ∀ e ∈ r.outgoing, e.1 < X.sigma) ∧
    (0 < X.header.size → 0 < X.sigma)))

/-- Well-formedness of a record body for serialization: every run names a
valid outgoing rank and has a positive length. -/
def recordRuns (r : DynamicRecord) : Prop :=
  ∀ run ∈ r.body, run.1 < r.outdegree ∧ 1 ≤ run.2

instance (r : DynamicRecord) : Decidable (recordRuns r) :=
  inferInstanceAs (Decidable (∀ run ∈ r.body, run.1 < r.outdegree ∧ 1 ≤ run.2))

/-- The index built by inserting the single sequence 3, 5, 7, 0 into an empty
index; its alphabet offset is 2 and it stores node ids in incoming edges. -/
def bugIndex : DynamicGBWT :=
  ((({} : DynamicGBWT).insertText [3, 5, 7, 0]).getD {})

/-- A concrete index exercising the incoming-edge fallback of the global LF:
alphabet 0, 2, 3, 4 with offset 1; node 4 has a self-loop edge with stored
offset 9 and incoming predecessors 2 and 4. -/
def lfSample : DynamicGBWT :=
  { header := { offset := 1, alphabet_size := 5 },
    bwt := [{}, {}, {},
            { incoming := [(2, 1), (4, 2)], outgoing := [(4, 9)] }] }

/-- An index with a real alphabet (offset 2, size 10) on which the resize
precondition check never sees the raw arguments. -/
def resizeSample : DynamicGBWT :=
  { header := { offset := 2, alphabet_size := 10, size := 1 },
    bwt := List.replicate 8 {} }

/-- A one-sequence index used as a non-empty merge source. -/
def tinyIndex : DynamicGBWT :=
  { header := { sequences := 1, size := 1, alphabet_size := 1 },
    bwt := [{ body_size := 1, body := [(0, 1)], outgoing := [(0, 0)] }] }

/-- Claim C9: inserting the empty text leaves the index unchanged: the result
is the original index itself, hence its header fields and all records are
identical. -/
theorem insertText_empty_noop (X : DynamicGBWT) : X.insertText [] = some X := rfl

/-- Claim C10: the two-argument LF returns the invalid-edge sentinel whenever
the start node is at least the alphabet size; no record is consulted. -/
theorem lf2_out_of_range (X : DynamicGBWT) (nfrom i : Nat)
    (h : nfrom ≥ X.sigma) : X.LF2 nfrom i = invalidEdge := by
  simp [DynamicGBWT.LF2, h]

/-- Witness for C10: a concrete out-of-range query on a concrete index. -/
theorem lf2_out_of_range_w :
    (5 ≥ lfSample.sigma) ∧ lfSample.LF2 5 0 = invalidEdge :=
  ⟨by decide, lf2_out_of_range lfSample 5 0 (by decide)⟩

/-- Counterexample to claim C3 as stated: the call resize(5, 3) has
new_offset 5 > 0 and 5 ≥ 3 = new_sigma, yet on an index with offset 2 and
alphabet size 10 it succeeds, because the check uses the adjusted values. -/
theorem resize_invariant_cex :
    (5 : Nat) > 0 ∧ (5 : Nat) ≥ 3 ∧ (resizeSample.resize 5 3).isSome = true := by
  refine ⟨by decide, by decide, by decide⟩

/-- Claim C3 (amended): resize fails fatally exactly when the adjusted
values — the requested offset replaced by the current one when the index has
a real alphabet and the request would grow the offset or when the requested
alphabet is degenerate, and the requested alphabet size replaced by the
current one when that is larger — satisfy adjusted_offset > 0 and
adjusted_offset ≥ adjusted_sigma. -/
theorem resize_invariant_amended (X : DynamicGBWT) (no ns : Nat) :
    X.resize no ns = none ↔
      (X.adjOffset no ns > 0 ∧ X.adjOffset no ns ≥ X.adjSigma ns) := by
  by_cases h : X.adjOffset no ns > 0 ∧ X.adjOffset no ns ≥ X.adjSigma ns
  · simp [DynamicGBWT.resize, h]
  · simp only [DynamicGBWT.resize]
    rw [if_neg h]
    constructor
    · intro hc
      exfalso
      revert hc
      split <;> simp
    · intro hc
      exact absurd hc h

/-- Claim C8: merging an empty index into any receiver leaves the receiver
unchanged, and merging a non-empty index into an empty receiver makes the
receiver equal, hence compare-equal, to the source. -/
theorem merge_early_outs (X Y : DynamicGBWT) (bs : Nat) :
    (Y.isEmptyIndex = true → X.mergeGBWT Y bs = some X) ∧
    (X.isEmptyIndex = true → Y.isEmptyIndex = false →
      X.mergeGBWT Y bs = some Y ∧ DynamicGBWT.compareGBWT Y Y = true) := by
  constructor
  · intro h
    simp [DynamicGBWT.mergeGBWT, h]
  · intro hX hY
    refine ⟨by simp [DynamicGBWT.mergeGBWT, hX, hY], ?_⟩
    simp [DynamicGBWT.compareGBWT]

/-- Witness for C8: both early-outs at concrete indices. -/
theorem merge_early_outs_w :
    (({} : DynamicGBWT).mergeGBWT {} 0 = some {}) ∧
    (({} : DynamicGBWT).mergeGBWT tinyIndex 0 = some tinyIndex) :=
  ⟨(merge_early_outs {} {} 0).1 (by decide),
   ((merge_early_outs {} tinyIndex 0).2 (by decide) (by decide)).1⟩

/-- Claim C2: the three-argument LF returns the invalid sentinel when the
destination is out of range; the column height of the destination when the
start node is out of range; the record-local LF when the start record has
the edge (and the local value is not the sentinel); and otherwise the stored
offset at the first incoming predecessor at least the start node, or the
column height when there is none. -/
theorem lf3_spec (X : DynamicGBWT) (f i t : Nat) :
    (t ≥ X.sigma → X.LF3 f i t = invalidOffset) ∧
    (t < X.sigma → f ≥ X.sigma → X.LF3 f i t = X.count t) ∧
    (t < X.sigma → f < X.sigma →
      (X.record f).edgeTo t < (X.record f).outdegree →
      (X.record f).recordLF2 i t ≠ invalidOffset →
      X.LF3 f i t = (X.record f).recordLF2 i t) ∧
    (t < X.sigma → f < X.sigma →
      ¬ (X.record f).edgeTo t < (X.record f).outdegree →
      (((X.record t).findFirst f ≥ (X.record t).indegree →
          X.LF3 f i t = X.count t) ∧
       ((X.record t).findFirst f < (X.record t).indegree →
          X.LF3 f i t =
            (X.record ((X.record t).predecessor ((X.record t).findFirst f))).offsetOf
              ((X.record ((X.record t).predecessor ((X.record t).findFirst f))).edgeTo t)))) := by
  refine ⟨?_, ?_, ?_, ?_⟩
  · intro h1
    simp [DynamicGBWT.LF3, h1]
  · intro h1 h2
    rw [DynamicGBWT.LF3, if_neg (by omega), if_pos h2]
  · intro h1 h2 _ h4
    rw [DynamicGBWT.LF3, if_neg (by omega), if_neg (by omega)]
    simp only [ne_eq]
    rw [if_pos h4]
  · intro h1 h2 h3
    have hlf : (X.record f).recordLF2 i t = invalidOffset := by
      rw [DynamicRecord.recordLF2]
      simp only [ge_iff_le]
      rw [if_pos (Nat.le_of_not_lt h3)]
    constructor
    · intro h5
      rw [DynamicGBWT.LF3, if_neg (by omega), if_neg (by omega)]
      simp only [hlf, ne_eq, not_true_eq_false, if_false, ge_iff_le]
      rw [if_pos h5]
    · intro h5
      rw [DynamicGBWT.LF3, if_neg (by omega), if_neg (by omega)]
      simp only [hlf, ne_eq, not_true_eq_false, if_false, ge_iff_le]
      rw [if_neg (Nat.not_le_of_lt h5)]

/-- Witness for C2: on the sample index a query from node 3 into node 4,
where record 3 has no edge, resolves through the incoming list of node 4 to
the self-loop predecessor 4 and its stored offset 9. -/
theorem lf3_spec_w : lfSample.LF3 3 0 4 = 9 := by
  have h := ((lf3_spec lfSample 3 0 4).2.2.2 (by decide) (by decide)
    (by decide)).2 (by decide)
  simpa using h

/-- Claim C1 (the code violates it): inserting 3, 5, 7, 0 into an empty index
gives an index with offset 2; serializing and loading it rebuilds the
incoming edges from compacted indices instead of node ids, so record 5 ends
up with predecessor 1 instead of 3, every other field round-trips, and
compare reports the indices different. -/
theorem serialize_load_not_inverse :
    (({} : DynamicGBWT).insertText [3, 5, 7, 0]).isSome = true ∧
    bugIndex.header.offset = 2 ∧
    DynamicGBWT.compareGBWT
      (DynamicGBWT.loadGBWT bugIndex.serializeGBWT) bugIndex = false ∧
    ((DynamicGBWT.loadGBWT bugIndex.serializeGBWT).record 5).incoming = [(1, 1)] ∧
    (bugIndex.record 5).incoming = [(3, 1)] ∧
    (DynamicGBWT.loadGBWT bugIndex.serializeGBWT).header = bugIndex.header ∧
    (DynamicGBWT.loadGBWT bugIndex.serializeGBWT).bwt.map
        (fun r => { r with incoming := [] }) =
      bugIndex.bwt.map (fun r => { r with incoming := [] }) := by
  refine ⟨by decide, by decide, by decide, by decide, by decide, by decide, by decide⟩

theorem getD_set_self {α : Type} (l : List α) (i : Nat) (v d : α)
    (h : i < l.length) : (l.set i v).getD i d = v := by
  simp [List.getD, List.getElem?_set_self, h]

theorem getD_set_ne {α : Type} (l : List α) (i j : Nat) (v d : α)
    (h : i ≠ j) : (l.set i v).getD j d = l.getD j d := by
  simp [List.getD, List.getElem?_set_ne, h]

theorem foldl_set_getD_notmem {α : Type} (cs : List Nat) (l0 : List α)
    (f : Nat → Nat) (g : Nat → α) (j : Nat) (d : α)
    (hj : ∀ c ∈ cs, f c ≠ j) :
    (cs.foldl (fun acc c => acc.set (f c) (g c)) l0).getD j d = l0.getD j d := by
  induction cs generalizing l0 with
  | nil => rfl
  | cons c0 rest ih =>
      simp only [List.foldl_cons]
      rw [ih _ (fun c hc => hj c (List.mem_cons_of_mem _ hc))]
      exact getD_set_ne _ _ _ _ _ (hj c0 (List.mem_cons_self _ _))

theorem foldl_set_getD_mem {α : Type} (cs : List Nat) (l0 : List α)
    (f : Nat → Nat) (g : Nat → α) (c : Nat) (d : α)
    (hmem : c ∈ cs) (hnd : cs.Nodup)
    (hinj : ∀ c1 ∈ cs, ∀ c2 ∈ cs, f c1 = f c2 → c1 = c2)
    (hlen : f c < l0.length) :
    (cs.foldl (fun acc x => acc.set (f x) (g x)) l0).getD (f c) d = g c := by
  induction cs generalizing l0 with
  | nil => cases hmem
  | cons c0 rest ih =>
      simp only [List.foldl_cons]
      rcases List.mem_cons.mp hmem with rfl | hc
      · rw [foldl_set_getD_notmem]
        · exact getD_set_self _ _ _ _ hlen
        · intro c2 hc2 heq
          have : c2 = c := hinj c2 (List.mem_cons_of_mem _ hc2) c
            (List.mem_cons_self _ _) heq
          subst this
          exact (List.nodup_cons.mp hnd).1 hc2
      · exact ih _ hc (List.nodup_cons.mp hnd).2
          (fun c1 h1 c2 h2 => hinj c1 (List.mem_cons_of_mem _ h1) c2
            (List.mem_cons_of_mem _ h2))
          (by simpa [List.length_set] using hlen)

theorem adjSigma_eq_max (X : DynamicGBWT) (ns : Nat) :
    X.adjSigma ns = max X.sigma ns := by
  rw [DynamicGBWT.adjSigma, Nat.max_def]
  split <;> split <;> omega

/-- Counterexample to claim C4 as stated: on an empty index, resize(2, 5)
succeeds and grows the offset from 0 to 2; the current offset is not kept
although the requested one is larger. -/
theorem resize_offset_grows_cex :
    (({} : DynamicGBWT).resize 2 5).map (fun r => r.header.offset) = some 2 ∧
    ({} : DynamicGBWT).header.offset = 0 ∧ (2 : Nat) > 0 := by
  refine ⟨by decide, by decide, by decide⟩

/-- Claim C4 (amended): for every non-failing resize, when the index already
has sigma > 1 the offset never grows (the current one is kept when the
requested one is larger), and it is also kept when new_sigma ≤ 1; on a
degenerate index the requested offset is adopted even if larger.  The
alphabet size becomes the maximum of the old and requested values, the
endmarker record stays at compacted index 0 unchanged, and every other
existing record is relocated to comp + old_offset − new_offset with its
contents unchanged. -/
theorem resize_post (X : DynamicGBWT) (no ns : Nat) (X' : DynamicGBWT)
    (h : X.resize no ns = some X') :
    X'.header.offset = X.adjOffset no ns ∧
    X'.header.alphabet_size = max X.sigma ns ∧
    (X.sigma > 1 → X'.header.offset ≤ X.header.offset) ∧
    (ns ≤ 1 → X'.header.offset = X.header.offset) ∧
    (X.effective > 0 → X'.bwt.getD 0 default = X.bwt.getD 0 default) ∧
    (∀ c, 1 ≤ c → c < X.effective →
      X'.bwt.getD (c + X.header.offset - X.adjOffset no ns) default =
        X.bwt.getD c default) := by
  have hsig := adjSigma_eq_max X ns
  have heffdef : X.effective = X.header.alphabet_size - X.header.offset := rfl
  have hsigdef : X.sigma = X.header.alphabet_size := rfl
  have hsigle : X.sigma ≤ X.adjSigma ns := by
    rw [hsig]
    exact Nat.le_max_left _ _
  simp only [DynamicGBWT.resize] at h
  by_cases hfail : X.adjOffset no ns > 0 ∧ X.adjOffset no ns ≥ X.adjSigma ns
  · rw [if_pos hfail] at h
    cases h
  rw [if_neg hfail] at h
  have hok : X.adjOffset no ns = 0 ∨ X.adjOffset no ns < X.adjSigma ns := by
    by_cases h0 : X.adjOffset no ns = 0
    · exact Or.inl h0
    · refine Or.inr (by_contra fun hlt => ?_)
      exact hfail ⟨Nat.pos_of_ne_zero h0, Nat.le_of_not_lt hlt⟩
  have hno_le : X.sigma > 1 → X.adjOffset no ns ≤ X.header.offset := by
    intro hs
    rw [DynamicGBWT.adjOffset]
    split
    · exact Nat.le_refl _
    · rename_i hcond
      push_neg at hcond
      exact hcond.1 hs
  have hns1 : ns ≤ 1 → X.adjOffset no ns = X.header.offset := by
    intro hs
    rw [DynamicGBWT.adjOffset, if_pos (Or.inr hs)]
  have hno_le2 : 2 ≤ X.effective → X.adjOffset no ns ≤ X.header.offset := by
    intro h2
    exact hno_le (by omega)
  have hlenb : 0 < X.effective → 0 < X.adjSigma ns - X.adjOffset no ns := by
    intro heff
    rcases hok with h0 | hlt <;> omega
  by_cases hch : X.adjOffset no ns ≠ X.header.offset ∨ X.adjSigma ns ≠ X.sigma
  · rw [if_pos hch] at h
    cases h
    refine ⟨rfl, hsig, hno_le, hns1, ?_, ?_⟩
    · intro heff
      rw [if_pos heff]
      have hlen0 : 0 < (List.replicate (X.adjSigma ns - X.adjOffset no ns)
          (default : DynamicRecord)).length := by
        rw [List.length_replicate]
        exact hlenb heff
      by_cases heff2 : 2 ≤ X.effective
      · rw [foldl_set_getD_notmem]
        · exact getD_set_self _ _ _ _ hlen0
        · intro c hc
          have hm := List.mem_range'_1.mp hc
          have := hno_le2 heff2
          omega
      · have h1 : X.effective - 1 = 0 := by omega
        rw [h1]
        simp only [List.range'_zero, List.foldl_nil]
        exact getD_set_self _ _ _ _ hlen0
    · intro c hc1 hc2
      have heff2 : 2 ≤ X.effective := by omega
      have hle := hno_le2 heff2
      rw [if_pos (by omega : 0 < X.effective)]
      refine foldl_set_getD_mem (List.range' 1 (X.effective - 1)) _
        (fun x => x + X.header.offset - X.adjOffset no ns)
        (fun x => X.bwt.getD x default) c default ?_ ?_ ?_ ?_
      · rw [List.mem_range'_1]
        omega
      · exact List.nodup_range' ..
      · intro c1 h1 c2 h2 heq
        simp only at heq
        have m1 := List.mem_range'_1.mp h1
        have m2 := List.mem_range'_1.mp h2
        omega
      · simp only
        rw [List.length_set, List.length_replicate]
        omega
  · rw [if_neg hch] at h
    cases h
    push_neg at hch
    refine ⟨hch.1.symm, by rw [← hsig, hch.2]; exact hsigdef.symm, fun _ => Nat.le_refl _,
      fun _ => hch.1.symm ▸ rfl, fun _ => rfl, ?_⟩
    intro c hc1 hc2
    rw [hch.1, Nat.add_sub_cancel]

/-- Witness for C4: the concrete resize(2, 5) on the empty index, where the
postcondition gives offset 2 and alphabet size 5. -/
theorem resize_post_w :
    ({} : DynamicGBWT).resize 2 5 =
      some { header := { offset := 2, alphabet_size := 5 },
             bwt := [{}, {}, {}] } ∧
    ({ header := { offset := 2, alphabet_size := 5 },
       bwt := [{}, {}, {}] } : DynamicGBWT).header.alphabet_size = max 0 5 := by
  refine ⟨by decide, ?_⟩
  exact (resize_post {} 2 5 _ (by decide)).2.1

theorem spliceOne_shape (curr : Nat) (st : SpliceSt) (s : Sequence) :
    seqShape (spliceOne curr st s).2 = seqShape s := rfl

theorem spliceWalk_shape (l : List Sequence) :
    ∀ (curr : Nat) (st : SpliceSt) (acc : List Sequence),
    (spliceWalk curr st acc l).2.map seqShape =
      acc.map seqShape ++ l.map seqShape := by
  induction l with
  | nil => intro curr st acc; simp [spliceWalk]
  | cons s rest ih =>
      intro curr st acc
      rw [spliceWalk]
      by_cases hc : s.curr = curr
      · rw [if_pos hc, ih]
        simp [spliceOne_shape]
      · rw [if_neg hc, ih]
        simp only [List.map_append, List.map_cons, List.map_nil]
        rw [List.append_assoc]
        have : seqShape (openGroup (finishGroup curr st) s).2 = seqShape s := rfl
        simp [this]

theorem spliceAll_shape (X : DynamicGBWT) (l : List Sequence) :
    (spliceAll X l).2.map seqShape = l.map seqShape := by
  cases l with
  | nil => rfl
  | cons s rest =>
      rw [spliceAll, spliceWalk_shape]
      have : seqShape (openGroup X s).2 = seqShape s := rfl
      simp [this]

theorem shape_transfer (l1 l2 : List Sequence)
    (h : l1.map seqShape = l2.map seqShape) :
    ∀ s ∈ l1, ∃ s0 ∈ l2, s0.id = s.id ∧ s0.curr = s.curr ∧
      s0.next = s.next ∧ s0.pos = s.pos := by
  intro s hs
  have : seqShape s ∈ l2.map seqShape := by
    rw [← h]
    exact List.mem_map_of_mem _ hs
  rcases List.mem_map.mp this with ⟨s0, hs0, heq⟩
  simp only [seqShape, Prod.mk.injEq] at heq
  exact ⟨s0, hs0, heq.1, heq.2.1, heq.2.2.1, heq.2.2.2⟩

theorem shape_map_eq {β : Type} (l1 l2 : List Sequence) (g : Nat × Nat × Nat × Nat → β)
    (h : l1.map seqShape = l2.map seqShape) :
    l1.map (fun s => g (seqShape s)) = l2.map (fun s => g (seqShape s)) := by
  have h1 : l1.map (fun s => g (seqShape s)) = (l1.map seqShape).map g := by
    rw [List.map_map]
    rfl
  have h2 : l2.map (fun s => g (seqShape s)) = (l2.map seqShape).map g := by
    rw [List.map_map]
    rfl
  rw [h1, h2, h]

theorem insertSorted_perm (x : Sequence) (l : List Sequence) :
    List.Perm (insertSorted x l) (x :: l) := by
  induction l with
  | nil => exact List.Perm.refl _
  | cons y ys ih =>
      rw [insertSorted]
      by_cases hc : seqKeyLT y x
      · rw [if_pos hc]
        exact (ih.cons y).trans (List.Perm.swap x y ys)
      · rw [if_neg hc]

theorem sortSeqs_perm (l : List Sequence) : List.Perm (sortSeqs l) l := by
  induction l with
  | nil => exact List.Perm.refl _
  | cons x xs ih =>
      have : sortSeqs (x :: xs) = insertSorted x (sortSeqs xs) := rfl
      rw [this]
      exact (insertSorted_perm x (sortSeqs xs)).trans (ih.cons x)

theorem seqKeyLT_true_next_le (a b : Sequence) (h : seqKeyLT a b = true) :
    a.next ≤ b.next := by
  have := of_decide_eq_true h
  omega

theorem seqKeyLT_false_next_le (a b : Sequence) (h : seqKeyLT a b = false) :
    b.next ≤ a.next := by
  have := of_decide_eq_false h
  push_neg at this
  omega

theorem insertSorted_pairwise (x : Sequence) (l : List Sequence)
    (h : l.Pairwise fun a b => a.next ≤ b.next) :
    (insertSorted x l).Pairwise fun a b => a.next ≤ b.next := by
  induction l with
  | nil => simp [insertSorted]
  | cons y ys ih =>
      rw [insertSorted]
      rcases List.pairwise_cons.mp h with ⟨hy, hys⟩
      by_cases hc : seqKeyLT y x
      · rw [if_pos hc]
        refine List.pairwise_cons.mpr ⟨?_, ih hys⟩
        intro z hz
        rcases List.mem_cons.mp ((insertSorted_perm x ys).mem_iff.mp hz) with rfl | hz2
        · exact seqKeyLT_true_next_le _ _ hc
        · exact hy z hz2
      · rw [if_neg hc]
        refine List.pairwise_cons.mpr ⟨?_, h⟩
        intro z hz
        have hxy : x.next ≤ y.next :=
          seqKeyLT_false_next_le _ _ (Bool.of_not_eq_true hc)
        rcases List.mem_cons.mp hz with rfl | hz2
        · exact hxy
        · exact Nat.le_trans hxy (hy z hz2)

theorem sortSeqs_pairwise (l : List Sequence) :
    (sortSeqs l).Pairwise fun a b => a.next ≤ b.next := by
  induction l with
  | nil => simp [sortSeqs]
  | cons x xs ih => exact insertSorted_pairwise x (sortSeqs xs) ih

theorem dropWhile_next_ne (l : List Sequence)
    (h : l.Pairwise fun a b => a.next ≤ b.next) :
    ∀ s ∈ l.dropWhile (fun s => s.next = ENDMARKER), s.next ≠ ENDMARKER := by
  induction l with
  | nil => intro s hs; cases hs
  | cons y ys ih =>
      rcases List.pairwise_cons.mp h with ⟨hy, hys⟩
      by_cases hc : y.next = ENDMARKER
      · rw [List.dropWhile_cons_of_pos (by simp [hc])]
        exact ih hys
      · rw [List.dropWhile_cons_of_neg (by simp [hc])]
        intro s hs
        rcases List.mem_cons.mp hs with rfl | hs2
        · exact hc
        · have := hy s hs2
          unfold ENDMARKER at hc ⊢
          omega

theorem sublist_sum_le (l1 l2 : List Nat) (h : List.Sublist l1 l2) : l1.sum ≤ l2.sum := by
  induction h with
  | slnil => exact Nat.le_refl _
  | cons a _ ih => simpa using Nat.le_trans ih (Nat.le_add_left _ _)
  | cons₂ a _ ih => simpa using ih

theorem sum_map_sub_one (l : List Nat) (h : ∀ a ∈ l, 1 ≤ a) :
    (l.map (fun a => a - 1)).sum + l.length = l.sum := by
  induction l with
  | nil => rfl
  | cons a rest ih =>
      simp only [List.map_cons, List.sum_cons, List.length_cons]
      have ha := h a (List.mem_cons_self _ _)
      have := ih (fun b hb => h b (List.mem_cons_of_mem _ hb))
      omega

theorem insertLoop_text_some (text : List Nat)
    (hlast : text.getD (text.length - 1) 0 = 0) :
    ∀ (fuel : Nat) (X : DynamicGBWT) (seqs : List Sequence) (its : Nat),
      (∀ s ∈ seqs, s.pos < text.length ∧ s.next = text.getD s.pos 0) →
      seqMeasure text seqs < fuel →
      (insertLoop nextPositionText (advancePositionText text) fuel X seqs
        its).isSome = true := by
  intro fuel
  induction fuel with
  | zero => intro X seqs its _ hm; exact absurd hm (Nat.not_lt_zero _)
  | succ f ih =>
      intro X seqs its hinv hm
      simp only [insertLoop]
      by_cases hempty :
        ((sortSeqs (nextPositionText (spliceAll X seqs).2)).dropWhile
          (fun s => s.next = ENDMARKER)).isEmpty
      · rw [if_pos hempty]
        rfl
      · rw [if_neg hempty]
        have hshape := spliceAll_shape X seqs
        have hinv1 : ∀ s ∈ (spliceAll X seqs).2,
            s.pos < text.length ∧ s.next = text.getD s.pos 0 := by
          intro s hs
          rcases shape_transfer _ _ hshape s hs with ⟨s0, hs0, _, _, hnext, hpos⟩
          have h0 := hinv s0 hs0
          rw [← hnext, ← hpos]
          exact h0
        have hmem4 : ∀ s ∈ (sortSeqs (nextPositionText (spliceAll X seqs).2)).dropWhile
            (fun s => s.next = ENDMARKER),
            s ∈ nextPositionText (spliceAll X seqs).2 := by
          intro s hs
          exact (sortSeqs_perm _).mem_iff.mp ((List.dropWhile_sublist _).subset hs)
        have hne4 := dropWhile_next_ne _
          (sortSeqs_pairwise (nextPositionText (spliceAll X seqs).2))
        have hinv4 : ∀ s ∈ (sortSeqs (nextPositionText (spliceAll X seqs).2)).dropWhile
            (fun s => s.next = ENDMARKER),
            1 ≤ s.pos ∧ s.pos < text.length ∧ s.next = text.getD (s.pos - 1) 0 := by
          intro s hs
          have hne := hne4 s hs
          rcases List.mem_map.mp (hmem4 s hs) with ⟨s0, hs0, rfl⟩
          rcases hinv1 s0 hs0 with ⟨hpos0, hnext0⟩
          refine ⟨by simp, ?_, by simpa using hnext0⟩
          by_contra hge
          push_neg at hge
          have hp : s0.pos = text.length - 1 := by
            simp only at hge
            omega
          apply hne
          show s0.next = ENDMARKER
          rw [hp, hlast] at hnext0
          exact hnext0
        have hm1 : seqMeasure text (spliceAll X seqs).2 = seqMeasure text seqs :=
          congrArg List.sum
            (shape_map_eq _ _ (fun t => text.length - t.2.2.2) hshape)
        have hlen1 : (spliceAll X seqs).2.length = seqs.length := by
          have := congrArg List.length hshape
          simpa using this
        have hm2 : seqMeasure text (nextPositionText (spliceAll X seqs).2) +
            (spliceAll X seqs).2.length = seqMeasure text (spliceAll X seqs).2 := by
          unfold seqMeasure nextPositionText
          rw [List.map_map]
          have h1 : (spliceAll X seqs).2.map
              ((fun s => text.length - s.pos) ∘ fun s => { s with pos := s.pos + 1 })
              = ((spliceAll X seqs).2.map fun s => text.length - s.pos).map
                  (fun a => a - 1) := by
            rw [List.map_map]
            refine List.map_congr_left ?_
            intro s _
            simp only [Function.comp]
            omega
          rw [h1]
          have h2 := sum_map_sub_one
            ((spliceAll X seqs).2.map fun s => text.length - s.pos)
            (by
              intro a ha
              rcases List.mem_map.mp ha with ⟨s, hs, rfl⟩
              have := (hinv1 s hs).1
              omega)
          rw [List.length_map] at h2
          exact h2
        have hm4 : seqMeasure text
            ((sortSeqs (nextPositionText (spliceAll X seqs).2)).dropWhile
              (fun s => s.next = ENDMARKER)) ≤
            seqMeasure text (nextPositionText (spliceAll X seqs).2) := by
          unfold seqMeasure
          refine Nat.le_trans
            (sublist_sum_le _ _ ((List.dropWhile_sublist _).map _)) ?_
          exact Nat.le_of_eq ((sortSeqs_perm _).map _).sum_eq
        have hne_seqs : 1 ≤ (spliceAll X seqs).2.length := by
          have h4ne : (sortSeqs (nextPositionText (spliceAll X seqs).2)).dropWhile
              (fun s => s.next = ENDMARKER) ≠ [] := by
            simpa [List.isEmpty_iff] using hempty
          rcases List.exists_mem_of_ne_nil _ h4ne with ⟨s, hs⟩
          rcases List.mem_map.mp (hmem4 s hs) with ⟨s0, hs0, _⟩
          have hne0 : (spliceAll X seqs).2 ≠ [] := List.ne_nil_of_mem hs0
          have := List.length_pos.mpr hne0
          omega
        refine ih _ _ _ ?_ ?_
        · intro s hs
          unfold advancePositionText at hs
          rcases List.mem_map.mp hs with ⟨s1, hs1, rfl⟩
          unfold translateOffsets at hs1
          rcases List.mem_map.mp hs1 with ⟨s2, hs2, rfl⟩
          have h2 := hinv4 s2 hs2
          exact ⟨by simpa using h2.2.1, rfl⟩
        · have hm6 : seqMeasure text (advancePositionText text
              (translateOffsets (rebuildOffsets
                { (spliceAll X seqs).1 with
                  header := { (spliceAll X seqs).1.header with
                    size := (spliceAll X seqs).1.header.size +
                      (spliceAll X seqs).2.length } }
                ((sortSeqs (nextPositionText (spliceAll X seqs).2)).dropWhile
                  (fun s => s.next = ENDMARKER)))
                ((sortSeqs (nextPositionText (spliceAll X seqs).2)).dropWhile
                  (fun s => s.next = ENDMARKER)))) =
              seqMeasure text
                ((sortSeqs (nextPositionText (spliceAll X seqs).2)).dropWhile
                  (fun s => s.next = ENDMARKER)) := by
            unfold seqMeasure advancePositionText translateOffsets
            rw [List.map_map, List.map_map]
            rfl
          rw [hm6]
          omega

theorem buildSeqsAux_inv (l : List Nat) :
    ∀ (i : Nat) (b : Bool) (n : Nat), ∀ s ∈ buildSeqsAux l i b n,
      i ≤ s.pos ∧ s.pos - i < l.length ∧ s.next = l.getD (s.pos - i) 0 ∧
        s.curr = ENDMARKER := by
  induction l with
  | nil => intro i b n s hs; cases hs
  | cons t rest ih =>
      intro i b n s hs
      rw [buildSeqsAux] at hs
      by_cases hb : b = true
      · rw [if_pos hb] at hs
        rcases List.mem_cons.mp hs with rfl | hs2
        · exact ⟨Nat.le_refl _, by simp, by simp, rfl⟩
        · rcases ih (i + 1) _ _ s hs2 with ⟨h1, h2, h3, h4⟩
          refine ⟨by omega, by simp only [List.length_cons]; omega, ?_, h4⟩
          have hstep : s.pos - i = (s.pos - (i + 1)) + 1 := by omega
          rw [hstep]
          simpa using h3
      · rw [if_neg hb] at hs
        rcases ih (i + 1) _ _ s hs with ⟨h1, h2, h3, h4⟩
        refine ⟨by omega, by simp only [List.length_cons]; omega, ?_, h4⟩
        have hstep : s.pos - i = (s.pos - (i + 1)) + 1 := by omega
        rw [hstep]
        simpa using h3

theorem getLastD_eq_getD (l : List Nat) (d : Nat) :
    l.getLastD d = l.getD (l.length - 1) d := by
  rw [List.getLastD_eq_getLast?, List.getLast?_eq_getElem?, List.getD_eq_getElem?_getD]

theorem foldl_nmin_le_init (l : List Nat) :
    ∀ init : Nat, l.foldl (fun m t => if t ≠ ENDMARKER then min m t else m) init ≤ init := by
  induction l with
  | nil => intro init; exact Nat.le_refl _
  | cons t rest ih =>
      intro init
      rw [List.foldl_cons]
      refine Nat.le_trans (ih _) ?_
      split
      · exact Nat.min_le_left _ _
      · exact Nat.le_refl _

theorem foldl_nmin_le_mem (l : List Nat) :
    ∀ init : Nat, ∀ t ∈ l, t ≠ ENDMARKER →
      l.foldl (fun m t => if t ≠ ENDMARKER then min m t else m) init ≤ t := by
  induction l with
  | nil => intro init t ht; cases ht
  | cons a rest ih =>
      intro init t ht hne
      rw [List.foldl_cons]
      rcases List.mem_cons.mp ht with rfl | ht2
      · refine Nat.le_trans (foldl_nmin_le_init _ _) ?_
        rw [if_pos hne]
        exact Nat.min_le_right _ _
      · exact ih _ t ht2 hne

theorem le_foldl_nmax (l : List Nat) :
    ∀ init : Nat, init ≤ l.foldl (fun m t => max m t) init := by
  induction l with
  | nil => intro init; exact Nat.le_refl _
  | cons a rest ih =>
      intro init
      rw [List.foldl_cons]
      exact Nat.le_trans (Nat.le_max_left _ _) (ih _)

theorem mem_le_foldl_nmax (l : List Nat) :
    ∀ init : Nat, ∀ t ∈ l, t ≤ l.foldl (fun m t => max m t) init := by
  induction l with
  | nil => intro init t ht; cases ht
  | cons a rest ih =>
      intro init t ht
      rw [List.foldl_cons]
      rcases List.mem_cons.mp ht with rfl | ht2
      · exact Nat.le_trans (Nat.le_max_right init t) (le_foldl_nmax _ _)
      · exact ih _ t ht2

theorem foldl_nmax_init_or_mem (l : List Nat) :
    ∀ init : Nat, l.foldl (fun m t => max m t) init = init ∨
      l.foldl (fun m t => max m t) init ∈ l := by
  induction l with
  | nil => intro init; exact Or.inl rfl
  | cons a rest ih =>
      intro init
      rw [List.foldl_cons]
      rcases ih (max init a) with h | h
      · rw [h, Nat.max_def]
        split
        · exact Or.inr (List.mem_cons_self _ _)
        · exact Or.inl rfl
      · exact Or.inr (List.mem_cons_of_mem _ h)

/-- Claim C6: for sequences derived from a text whose last symbol is the
endmarker (every sequence then ends with an endmarker at or after its
position), the batched engine terminates within the measure-based fuel and
returns the iteration count together with the updated index. -/
theorem engine_text_terminates (text : List Nat) (X : DynamicGBWT)
    (seqs : List Sequence)
    (hlast : text.getD (text.length - 1) 0 = ENDMARKER)
    (hinv : ∀ s ∈ seqs, s.pos < text.length ∧ s.next = text.getD s.pos 0) :
    ∃ r, insertLoop nextPositionText (advancePositionText text)
      (textFuel text seqs) X seqs 0 = some r := by
  have h := insertLoop_text_some text hlast (textFuel text seqs) X seqs 0 hinv
    (by unfold textFuel; omega)
  exact Option.isSome_iff_exists.mp h

/-- Witness for C6: the engine on the text 1, 0 from the empty index. -/
theorem engine_text_terminates_w :
    ∃ r, insertLoop nextPositionText (advancePositionText [1, 0])
      (textFuel [1, 0] (buildSeqsAux [1, 0] 0 true 0)) {}
      (buildSeqsAux [1, 0] 0 true 0) 0 = some r :=
  engine_text_terminates [1, 0] {} (buildSeqsAux [1, 0] 0 true 0)
    (by decide) (by decide)

theorem insertText_isSome_aux (X : DynamicGBWT) (text : List Nat)
    (hwf : X.header.offset = 0 ∨ X.header.offset < X.sigma)
    (hne : text.isEmpty = false) (hlast : text.getLastD 0 = ENDMARKER) :
    (X.insertText text).isSome = true := by
  rw [DynamicGBWT.insertText]
  rw [if_neg (by simp [hne]), if_neg (not_not_intro hlast)]
  rcases hres : (DynamicGBWT.insertX1 X text).resize
      (textMinF X text - 1) (textMax X text + 1) with _ | X2
  · exfalso
    have hadj := (resize_invariant_amended _ _ _).mp hres
    have hsig1 : (DynamicGBWT.insertX1 X text).sigma = X.sigma := rfl
    have hoff1 : (DynamicGBWT.insertX1 X text).header.offset = X.header.offset := rfl
    have hsigle : (DynamicGBWT.insertX1 X text).sigma ≤
        (DynamicGBWT.insertX1 X text).adjSigma (textMax X text + 1) := by
      rw [adjSigma_eq_max]
      exact Nat.le_max_left _ _
    have hmaxle : textMax X text + 1 ≤
        (DynamicGBWT.insertX1 X text).adjSigma (textMax X text + 1) := by
      rw [adjSigma_eq_max]
      exact Nat.le_max_right _ _
    by_cases hcnd : ((DynamicGBWT.insertX1 X text).sigma > 1 ∧
        textMinF X text - 1 > (DynamicGBWT.insertX1 X text).header.offset) ∨
        textMax X text + 1 ≤ 1
    · rw [DynamicGBWT.adjOffset, if_pos hcnd] at hadj
      omega
    · rw [DynamicGBWT.adjOffset, if_neg hcnd] at hadj
      push_neg at hcnd
      have hmaxpos : 1 ≤ textMax X text := by omega
      have hminF : textMinF X text = textMin X text := by
        unfold textMinF
        rw [if_neg (by omega)]
      rw [hminF] at hadj
      by_cases hXe : X.isEmptyIndex
      · have hinit : textMax X text = text.foldl (fun m t => max m t) 0 := by
          unfold textMax
          rw [if_pos hXe]
        rcases foldl_nmax_init_or_mem text 0 with h0 | hmem
        · rw [hinit] at hmaxpos
          omega
        · have hmle : textMin X text ≤ textMax X text := by
            unfold textMin
            rw [hinit]
            refine foldl_nmin_le_mem text _ _ hmem ?_
            rw [hinit] at hmaxpos
            unfold ENDMARKER
            omega
          omega
      · have hmle : textMin X text ≤ X.header.offset + 1 := by
          unfold textMin
          rw [if_neg hXe]
          exact foldl_nmin_le_init _ _
        omega
  · have hinvseqs : ∀ s ∈ DynamicGBWT.insertSeqs X text,
        s.pos < text.length ∧ s.next = text.getD s.pos 0 := by
      intro s hs
      rcases buildSeqsAux_inv text 0 true X.sequences s hs with ⟨_, h2, h3, _⟩
      rw [Nat.sub_zero] at h2 h3
      exact ⟨h2, h3⟩
    have hlastD : text.getD (text.length - 1) 0 = 0 := by
      rw [← getLastD_eq_getD]
      exact hlast
    have hloop := insertLoop_text_some text hlastD
      (textFuel text (DynamicGBWT.insertSeqs X text)) X2
      (DynamicGBWT.insertSeqs X text) 0 hinvseqs
      (by unfold textFuel; omega)
    rcases Option.isSome_iff_exists.mp hloop with ⟨r, hr⟩
    simp only [hr, Option.isSome_some]

/-- Claim C5: a non-empty text whose last symbol is not the endmarker makes
insert fail fatally (the check precedes every state update, so the index is
untouched); a text whose last symbol is the endmarker never triggers this
failure on a well-formed index. -/
theorem insert_endmarker_requirement :
    (∀ (X : DynamicGBWT) (text : List Nat), text ≠ [] →
      text.getLastD 0 ≠ ENDMARKER → X.insertText text = none) ∧
    (∀ (X : DynamicGBWT) (text : List Nat),
      (X.header.offset = 0 ∨ X.header.offset < X.sigma) →
      text.getLastD 0 = ENDMARKER → (X.insertText text).isSome = true) := by
  constructor
  · intro X text hne hlast
    rw [DynamicGBWT.insertText]
    rw [if_neg (by simp [List.isEmpty_iff, hne]), if_pos hlast]
  · intro X text hwf hlast
    by_cases hne : text.isEmpty
    · rw [DynamicGBWT.insertText, if_pos hne]
      rfl
    · exact insertText_isSome_aux X text hwf (Bool.of_not_eq_true hne) hlast

/-- Witness for C5: insert([1]) on the empty index fails, insert([1, 0])
succeeds. -/
theorem insert_endmarker_requirement_w :
    ({} : DynamicGBWT).insertText [1] = none ∧
    (({} : DynamicGBWT).insertText [1, 0]).isSome = true :=
  ⟨insert_endmarker_requirement.1 {} [1] (by decide) (by decide),
   insert_endmarker_requirement.2 {} [1, 0] (Or.inl rfl) (by decide)⟩

theorem runsTotal_nil : runsTotal [] = 0 := rfl

theorem runsTotal_cons (r : Nat × Nat) (l : List (Nat × Nat)) :
    runsTotal (r :: l) = r.2 + runsTotal l := by
  simp [runsTotal]

theorem runsTotal_append (a b : List (Nat × Nat)) :
    runsTotal (a ++ b) = runsTotal a + runsTotal b := by
  simp [runsTotal]

theorem sum_set_nat (m : List Nat) : ∀ (i x : Nat), i < m.length →
    (m.set i x).sum + m.getD i 0 = m.sum + x := by
  induction m with
  | nil => intro i x h; cases h
  | cons a rest ih =>
      intro i x h
      cases i with
      | zero => simp [List.set_cons_zero]; omega
      | succ j =>
          rw [List.set_cons_succ]
          simp only [List.sum_cons, List.getD_cons_succ]
          have := ih j x (by simpa using h)
          omega

theorem set_map_same {α β : Type} (g : α → β) (d : α) :
    ∀ (l : List α) (i : Nat) (v : α), g v = g (l.getD i d) →
      (l.set i v).map g = l.map g := by
  intro l
  induction l with
  | nil => intro i v _; rfl
  | cons a rest ih =>
      intro i v h
      cases i with
      | zero =>
          simp only [List.set_cons_zero, List.map_cons]
          rw [show g v = g a by simpa using h]
      | succ j =>
          simp only [List.set_cons_succ, List.map_cons]
          rw [ih j v (by simpa using h)]

theorem map_getD_comm {α β : Type} (g : α → β) (d : α) (l1 l2 : List α)
    (h : l1.map g = l2.map g) (i : Nat) : g (l1.getD i d) = g (l2.getD i d) := by
  induction l1 generalizing l2 i with
  | nil =>
      cases l2 with
      | nil => rfl
      | cons b bs => simp at h
  | cons a as ih =>
      cases l2 with
      | nil => simp at h
      | cons b bs =>
          simp only [List.map_cons, List.cons.injEq] at h
          cases i with
          | zero => simpa using h.1
          | succ j => simpa using ih bs h.2 j

theorem map_eq_length {α β : Type} (g : α → β) (l1 l2 : List α)
    (h : l1.map g = l2.map g) : l1.length = l2.length := by
  have := congrArg List.length h
  simpa using this

theorem sized_transfer (l1 l2 : List DynamicRecord)
    (h : l1.map recBodyData = l2.map recBodyData)
    (hs : ∀ r ∈ l2, recordSized r) : ∀ r ∈ l1, recordSized r := by
  intro r hr
  have : recBodyData r ∈ l2.map recBodyData := by
    rw [← h]
    exact List.mem_map_of_mem _ hr
  rcases List.mem_map.mp this with ⟨r2, hr2, heq⟩
  have := hs r2 hr2
  unfold recordSized at this ⊢
  unfold recBodyData at heq
  rw [show r.body_size = r2.body_size by
        have := congrArg Prod.fst heq; simpa using this.symm,
      show r.body = r2.body by
        have := congrArg Prod.snd heq; simpa using this.symm]
  exact this

theorem sizes_of_bodyData (l1 l2 : List DynamicRecord)
    (h : l1.map recBodyData = l2.map recBodyData) :
    (l1.map DynamicRecord.size).sum = (l2.map DynamicRecord.size).sum := by
  have h1 : l1.map DynamicRecord.size = (l1.map recBodyData).map Prod.fst := by
    rw [List.map_map]
    rfl
  have h2 : l2.map DynamicRecord.size = (l2.map recBodyData).map Prod.fst := by
    rw [List.map_map]
    rfl
  rw [h1, h2, h]

theorem insertRun_total (m : RunMerger) (run : Nat × Nat) :
    (m.insertRun run).total_size = m.total_size + run.2 := by
  simp only [RunMerger.insertRun]
  split <;> rfl

theorem insertRun_ok (m : RunMerger) (run : Nat × Nat) (h : mergerOK m) :
    mergerOK (m.insertRun run) := by
  unfold mergerOK at h ⊢
  simp only [RunMerger.insertRun]
  split
  · simp only []
    omega
  · by_cases hz : m.accumulator.2 ≠ 0
    · simp only [if_pos hz, runsTotal_append]
      have : runsTotal [m.accumulator] = m.accumulator.2 := by
        simp [runsTotal]
      omega
    · simp only [if_neg hz]
      omega

theorem flush_ok (m : RunMerger) (h : mergerOK m) :
    runsTotal m.flush.runs = m.total_size ∧
      m.flush.total_size = m.total_size := by
  unfold mergerOK at h
  rw [RunMerger.flush]
  split
  · refine ⟨?_, rfl⟩
    rename_i hz
    simp only [runsTotal_append]
    have : runsTotal [m.accumulator] = m.accumulator.2 := by simp [runsTotal]
    omega
  · rename_i hz
    push_neg at hz
    exact ⟨by omega, rfl⟩

theorem init_ok (n : Nat) : mergerOK (RunMerger.init n) := rfl

theorem addEdge_fields (m : RunMerger) :
    (m.addEdge.total_size, m.addEdge.runs, m.addEdge.accumulator) =
      (m.total_size, m.runs, m.accumulator) := rfl

theorem pullRuns_spec : ∀ (runsIn : List (Nat × Nat)) (m : RunMerger) (target : Nat),
    (pullRuns m runsIn target).1.total_size +
        runsTotal (pullRuns m runsIn target).2 =
      m.total_size + runsTotal runsIn ∧
    (mergerOK m → mergerOK (pullRuns m runsIn target).1) := by
  intro runsIn
  induction runsIn with
  | nil =>
      intro m target
      exact ⟨by simp [pullRuns, runsTotal], fun h => h⟩
  | cons r rest ih =>
      intro m target
      obtain ⟨c, l⟩ := r
      rw [pullRuns]
      by_cases h1 : m.size ≥ target
      · rw [if_pos h1]
        exact ⟨rfl, fun h => h⟩
      · rw [if_neg h1]
        by_cases h2 : l ≤ target - m.size
        · rw [if_pos h2]
          rcases ih (m.insertRun (c, l)) target with ⟨ha, hb⟩
          constructor
          · rw [ha, insertRun_total, runsTotal_cons]
            omega
          · intro h
            exact hb (insertRun_ok _ _ h)
        · rw [if_neg h2]
          constructor
          · simp only [insertRun_total, runsTotal_cons]
            unfold RunMerger.size at h1 h2 ⊢
            omega
          · intro h
            exact insertRun_ok _ _ h

theorem foldl_insertRun_spec : ∀ (runsIn : List (Nat × Nat)) (m : RunMerger),
    (runsIn.foldl (fun acc run => acc.insertRun run) m).total_size =
      m.total_size + runsTotal runsIn ∧
    (mergerOK m →
      mergerOK (runsIn.foldl (fun acc run => acc.insertRun run) m)) := by
  intro runsIn
  induction runsIn with
  | nil => intro m; exact ⟨by simp [runsTotal], fun h => h⟩
  | cons r rest ih =>
      intro m
      rw [List.foldl_cons]
      rcases ih (m.insertRun r) with ⟨ha, hb⟩
      constructor
      · rw [ha, insertRun_total, runsTotal_cons]
        omega
      · intro h
        exact hb (insertRun_ok _ _ h)

theorem getD_mem_of_lt {α : Type} (l : List α) (i : Nat) (d : α)
    (h : i < l.length) : l.getD i d ∈ l := by
  rw [List.getD_eq_getElem _ _ h]
  exact List.getElem_mem h

theorem map_getD_size (l : List DynamicRecord) (i : Nat) (h : i < l.length) :
    (l.map DynamicRecord.size).getD i 0 = (l.getD i default).size := by
  rw [List.getD_eq_getElem _ _ (by simpa using h), List.getD_eq_getElem _ _ h]
  simp

theorem comp_congr (X Y : DynamicGBWT) (h : X.header = Y.header) (n : Nat) :
    X.comp n = Y.comp n := by
  unfold DynamicGBWT.comp
  rw [h]

theorem record_body_size_of_bodyData (X Y : DynamicGBWT)
    (hbd : X.bwt.map recBodyData = Y.bwt.map recBodyData)
    (hhd : X.header = Y.header) (n : Nat) :
    (X.record n).body_size = (Y.record n).body_size := by
  unfold DynamicGBWT.record
  rw [comp_congr _ _ hhd n]
  exact congrArg Prod.fst (map_getD_comm recBodyData default _ _ hbd (Y.comp n))

theorem spliceOne_spec (curr : Nat) (st : SpliceSt) (s : Sequence) :
    (spliceOne curr st s).1.X.bwt.map recBodyData = st.X.bwt.map recBodyData ∧
    (spliceOne curr st s).1.X.header = st.X.header ∧
    ((spliceOne curr st s).1.m.total_size +
        runsTotal (spliceOne curr st s).1.rem =
      st.m.total_size + runsTotal st.rem + 1) ∧
    (mergerOK st.m → mergerOK (spliceOne curr st s).1.m) := by
  simp only [spliceOne]
  refine ⟨?_, ?_, ?_, ?_⟩
  · split
    · split
      · rfl
      · exact set_map_same recBodyData default st.X.bwt _ _ rfl
    · rfl
  · split
    · split
      · rfl
      · rfl
    · rfl
  · split
    · dsimp only
      rcases pullRuns_spec st.rem st.m.addEdge s.offset with ⟨hc, _⟩
      rw [insertRun_total]
      have ha : st.m.addEdge.total_size = st.m.total_size := rfl
      omega
    · dsimp only
      rcases pullRuns_spec st.rem st.m s.offset with ⟨hc, _⟩
      rw [insertRun_total]
      omega
  · intro h
    split
    · dsimp only
      exact insertRun_ok _ _ ((pullRuns_spec st.rem st.m.addEdge s.offset).2 h)
    · dsimp only
      exact insertRun_ok _ _ ((pullRuns_spec st.rem st.m s.offset).2 h)

theorem finishGroup_spec (curr : Nat) (st : SpliceSt) (hok : mergerOK st.m)
    (hcomp : st.X.comp curr < st.X.bwt.length) :
    (finishGroup curr st).header = st.X.header ∧
    (finishGroup curr st).bwt.length = st.X.bwt.length ∧
    (sizesTotal (finishGroup curr st) + (st.X.record curr).body_size =
      sizesTotal st.X + (st.m.total_size + runsTotal st.rem)) ∧
    (∀ r ∈ (finishGroup curr st).bwt, r ∈ st.X.bwt ∨ recordSized r) := by
  have hfold := foldl_insertRun_spec st.rem st.m
  have hfl := flush_ok _ (hfold.2 hok)
  refine ⟨rfl, by simp [finishGroup, DynamicGBWT.setRecord], ?_, ?_⟩
  · unfold finishGroup sizesTotal DynamicGBWT.setRecord DynamicGBWT.record
    simp only []
    rw [List.map_set]
    have hlt : st.X.comp curr < (st.X.bwt.map DynamicRecord.size).length := by
      simpa using hcomp
    have hs := sum_set_nat (st.X.bwt.map DynamicRecord.size) (st.X.comp curr)
      ((st.rem.foldl (fun m run => m.insertRun run) st.m).flush.total_size) hlt
    rw [map_getD_size _ _ hcomp] at hs
    have h1 : (st.rem.foldl (fun m run => m.insertRun run) st.m).flush.total_size =
        st.m.total_size + runsTotal st.rem := by
      rw [hfl.2, hfold.1]
    unfold DynamicRecord.size at hs ⊢
    dsimp only at hs ⊢
    omega
  · intro r hr
    unfold finishGroup DynamicGBWT.setRecord at hr
    simp only [] at hr
    rcases List.mem_or_eq_of_mem_set hr with h | h
    · exact Or.inl h
    · refine Or.inr ?_
      unfold recordSized
      rw [h]
      simp only []
      rw [hfl.1, hfl.2]

theorem spliceWalk_spec : ∀ (l : List Sequence) (curr : Nat) (st : SpliceSt)
    (acc : List Sequence) (k : Nat),
    mergerOK st.m →
    st.m.total_size + runsTotal st.rem = (st.X.record curr).body_size + k →
    (∀ r ∈ st.X.bwt, recordSized r) →
    st.X.comp curr < st.X.bwt.length →
    (∀ s ∈ l, st.X.comp s.curr < st.X.bwt.length) →
    (spliceWalk curr st acc l).1.header = st.X.header ∧
    (spliceWalk curr st acc l).1.bwt.length = st.X.bwt.length ∧
    sizesTotal (spliceWalk curr st acc l).1 = sizesTotal st.X + k + l.length ∧
    (∀ r ∈ (spliceWalk curr st acc l).1.bwt, recordSized r) := by
  intro l
  induction l with
  | nil =>
      intro curr st acc k hok hacct hsized hcomp _
      rcases finishGroup_spec curr st hok hcomp with ⟨h1, h2, h3, h4⟩
      rw [spliceWalk]
      dsimp only
      refine ⟨h1, h2, by simp only [List.length_nil]; omega, ?_⟩
      intro r hr
      rcases h4 r hr with h | h
      · exact hsized r h
      · exact h
  | cons s rest ih =>
      intro curr st acc k hok hacct hsized hcomp hcompl
      rw [spliceWalk]
      by_cases hc : s.curr = curr
      · rw [if_pos hc]
        rcases spliceOne_spec curr st s with ⟨hbd, hhd, hacct1, hok1⟩
        have hlen1 : (spliceOne curr st s).1.X.bwt.length = st.X.bwt.length :=
          map_eq_length _ _ _ hbd
        have hcompeq : ∀ n, (spliceOne curr st s).1.X.comp n = st.X.comp n :=
          fun n => comp_congr _ _ hhd n
        have hrecsz : ((spliceOne curr st s).1.X.record curr).body_size =
            (st.X.record curr).body_size :=
          record_body_size_of_bodyData _ _ hbd hhd curr
        rcases ih curr (spliceOne curr st s).1 (acc ++ [(spliceOne curr st s).2])
            (k + 1) (hok1 hok)
            (by rw [hrecsz]; omega)
            (sized_transfer _ _ hbd hsized)
            (by rw [hcompeq, hlen1]; exact hcomp)
            (by
              intro q hq
              rw [hcompeq, hlen1]
              exact hcompl q (List.mem_cons_of_mem _ hq))
          with ⟨g1, g2, g3, g4⟩
        refine ⟨g1.trans hhd, by rw [g2, hlen1], ?_, g4⟩
        rw [g3]
        unfold sizesTotal
        rw [sizes_of_bodyData _ _ hbd]
        simp only [List.length_cons]
        omega
      · rw [if_neg hc]
        unfold openGroup
        rcases finishGroup_spec curr st hok hcomp with ⟨f1, f2, f3, f4⟩
        have hsized1 : ∀ r ∈ (finishGroup curr st).bwt, recordSized r := by
          intro r hr
          rcases f4 r hr with h | h
          · exact hsized r h
          · exact h
        have hcompeq1 : ∀ n, (finishGroup curr st).comp n = st.X.comp n :=
          fun n => comp_congr _ _ f1 n
        have hcomps : (finishGroup curr st).comp s.curr <
            (finishGroup curr st).bwt.length := by
          rw [hcompeq1, f2]
          exact hcompl s (List.mem_cons_self _ _)
        have hrecmem : (finishGroup curr st).record s.curr ∈
            (finishGroup curr st).bwt :=
          getD_mem_of_lt _ _ _ hcomps
        have hrec0sz : recordSized ((finishGroup curr st).record s.curr) :=
          hsized1 _ hrecmem
        rcases spliceOne_spec s.curr
            ⟨finishGroup curr st, (finishGroup curr st).record s.curr,
              ((finishGroup curr st).record s.curr).body,
              RunMerger.init ((finishGroup curr st).record s.curr).outdegree⟩ s
          with ⟨hbd0, hhd0, hacct1, hok1⟩
        have hbd : (spliceOne s.curr
            ⟨finishGroup curr st, (finishGroup curr st).record s.curr,
              ((finishGroup curr st).record s.curr).body,
              RunMerger.init ((finishGroup curr st).record s.curr).outdegree⟩ s).1.X.bwt.map recBodyData =
            (finishGroup curr st).bwt.map recBodyData := hbd0
        have hhd : (spliceOne s.curr
            ⟨finishGroup curr st, (finishGroup curr st).record s.curr,
              ((finishGroup curr st).record s.curr).body,
              RunMerger.init ((finishGroup curr st).record s.curr).outdegree⟩ s).1.X.header =
            (finishGroup curr st).header := hhd0
        have hlen1 : (spliceOne s.curr
            ⟨finishGroup curr st, (finishGroup curr st).record s.curr,
              ((finishGroup curr st).record s.curr).body,
              RunMerger.init ((finishGroup curr st).record s.curr).outdegree⟩ s).1.X.bwt.length =
            (finishGroup curr st).bwt.length := map_eq_length _ _ _ hbd
        have hcompeq : ∀ n, (spliceOne s.curr
            ⟨finishGroup curr st, (finishGroup curr st).record s.curr,
              ((finishGroup curr st).record s.curr).body,
              RunMerger.init ((finishGroup curr st).record s.curr).outdegree⟩ s).1.X.comp n =
            st.X.comp n := by
          intro n
          rw [comp_congr _ _ hhd n, hcompeq1]
        have hrecsz : ((spliceOne s.curr
            ⟨finishGroup curr st, (finishGroup curr st).record s.curr,
              ((finishGroup curr st).record s.curr).body,
              RunMerger.init ((finishGroup curr st).record s.curr).outdegree⟩ s).1.X.record s.curr).body_size =
            ((finishGroup curr st).record s.curr).body_size :=
          record_body_size_of_bodyData _ _ hbd hhd s.curr
        have hacct2 : (spliceOne s.curr
            ⟨finishGroup curr st, (finishGroup curr st).record s.curr,
              ((finishGroup curr st).record s.curr).body,
              RunMerger.init ((finishGroup curr st).record s.curr).outdegree⟩ s).1.m.total_size +
            runsTotal (spliceOne s.curr
            ⟨finishGroup curr st, (finishGroup curr st).record s.curr,
              ((finishGroup curr st).record s.curr).body,
              RunMerger.init ((finishGroup curr st).record s.curr).outdegree⟩ s).1.rem =
            ((spliceOne s.curr
            ⟨finishGroup curr st, (finishGroup curr st).record s.curr,
              ((finishGroup curr st).record s.curr).body,
              RunMerger.init ((finishGroup curr st).record s.curr).outdegree⟩ s).1.X.record s.curr).body_size + 1 := by
          rw [hrecsz]
          have hinitt : (RunMerger.init
              ((finishGroup curr st).record s.curr).outdegree).total_size = 0 := rfl
          have hi0 := hrec0sz
          unfold recordSized at hi0
          have hacct1b : (spliceOne s.curr
            ⟨finishGroup curr st, (finishGroup curr st).record s.curr,
              ((finishGroup curr st).record s.curr).body,
              RunMerger.init ((finishGroup curr st).record s.curr).outdegree⟩ s).1.m.total_size +
              runsTotal (spliceOne s.curr
            ⟨finishGroup curr st, (finishGroup curr st).record s.curr,
              ((finishGroup curr st).record s.curr).body,
              RunMerger.init ((finishGroup curr st).record s.curr).outdegree⟩ s).1.rem =
              (RunMerger.init ((finishGroup curr st).record s.curr).outdegree).total_size +
                runsTotal ((finishGroup curr st).record s.curr).body + 1 := hacct1
          omega
        rcases ih s.curr (spliceOne s.curr
            ⟨finishGroup curr st, (finishGroup curr st).record s.curr,
              ((finishGroup curr st).record s.curr).body,
              RunMerger.init ((finishGroup curr st).record s.curr).outdegree⟩ s).1
            (acc ++ [(spliceOne s.curr
            ⟨finishGroup curr st, (finishGroup curr st).record s.curr,
              ((finishGroup curr st).record s.curr).body,
              RunMerger.init ((finishGroup curr st).record s.curr).outdegree⟩ s).2]) 1 (hok1 (init_ok _))
            hacct2
            (sized_transfer _ _ hbd hsized1)
            (by
              rw [hcompeq, hlen1, f2]
              exact hcompl s (List.mem_cons_self _ _))
            (by
              intro q hq
              rw [hcompeq, hlen1, f2]
              exact hcompl q (List.mem_cons_of_mem _ hq))
          with ⟨g1, g2, g3, g4⟩
        refine ⟨(g1.trans hhd).trans f1, by rw [g2, hlen1, f2], ?_, g4⟩
        rw [g3]
        unfold sizesTotal
        rw [sizes_of_bodyData _ _ hbd]
        have hfg : ((finishGroup curr st).bwt.map DynamicRecord.size).sum =
            sizesTotal (finishGroup curr st) := rfl
        have hsx : (st.X.bwt.map DynamicRecord.size).sum = sizesTotal st.X := rfl
        rw [hfg, hsx]
        simp only [List.length_cons]
        omega

theorem spliceAll_spec (X : DynamicGBWT) (seqs : List Sequence)
    (hsized : ∀ r ∈ X.bwt, recordSized r)
    (hcomp : ∀ s ∈ seqs, X.comp s.curr < X.bwt.length) :
    (spliceAll X seqs).1.header = X.header ∧
    (spliceAll X seqs).1.bwt.length = X.bwt.length ∧
    sizesTotal (spliceAll X seqs).1 = sizesTotal X + seqs.length ∧
    (∀ r ∈ (spliceAll X seqs).1.bwt, recordSized r) := by
  cases seqs with
  | nil => exact ⟨rfl, rfl, by simp [spliceAll], hsized⟩
  | cons s rest =>
      rw [spliceAll]
      unfold openGroup
      have hcs := hcomp s (List.mem_cons_self _ _)
      have hrec0 : recordSized (X.record s.curr) :=
        hsized _ (getD_mem_of_lt _ _ _ hcs)
      rcases spliceOne_spec s.curr
          ⟨X, X.record s.curr, (X.record s.curr).body,
            RunMerger.init (X.record s.curr).outdegree⟩ s
        with ⟨hbd0, hhd0, hacct1, hok1⟩
      have hbd : (spliceOne s.curr
          ⟨X, X.record s.curr, (X.record s.curr).body,
            RunMerger.init (X.record s.curr).outdegree⟩ s).1.X.bwt.map recBodyData =
          X.bwt.map recBodyData := hbd0
      have hhd : (spliceOne s.curr
          ⟨X, X.record s.curr, (X.record s.curr).body,
            RunMerger.init (X.record s.curr).outdegree⟩ s).1.X.header = X.header := hhd0
      have hlen1 : (spliceOne s.curr
          ⟨X, X.record s.curr, (X.record s.curr).body,
            RunMerger.init (X.record s.curr).outdegree⟩ s).1.X.bwt.length = X.bwt.length :=
        map_eq_length _ _ _ hbd
      have hcompeq : ∀ n, (spliceOne s.curr
          ⟨X, X.record s.curr, (X.record s.curr).body,
            RunMerger.init (X.record s.curr).outdegree⟩ s).1.X.comp n = X.comp n :=
        fun n => comp_congr _ _ hhd n
      have hrecsz : ((spliceOne s.curr
          ⟨X, X.record s.curr, (X.record s.curr).body,
            RunMerger.init (X.record s.curr).outdegree⟩ s).1.X.record s.curr).body_size =
          (X.record s.curr).body_size :=
        record_body_size_of_bodyData _ _ hbd hhd s.curr
      have hacct2 : (spliceOne s.curr
          ⟨X, X.record s.curr, (X.record s.curr).body,
            RunMerger.init (X.record s.curr).outdegree⟩ s).1.m.total_size +
          runsTotal (spliceOne s.curr
          ⟨X, X.record s.curr, (X.record s.curr).body,
            RunMerger.init (X.record s.curr).outdegree⟩ s).1.rem =
          ((spliceOne s.curr
          ⟨X, X.record s.curr, (X.record s.curr).body,
            RunMerger.init (X.record s.curr).outdegree⟩ s).1.X.record s.curr).body_size + 1 := by
        rw [hrecsz]
        have hi0 := hrec0
        unfold recordSized at hi0
        have hinitt : (RunMerger.init (X.record s.curr).outdegree).total_size
            = 0 := rfl
        have hacct1b : (spliceOne s.curr
          ⟨X, X.record s.curr, (X.record s.curr).body,
            RunMerger.init (X.record s.curr).outdegree⟩ s).1.m.total_size +
            runsTotal (spliceOne s.curr
          ⟨X, X.record s.curr, (X.record s.curr).body,
            RunMerger.init (X.record s.curr).outdegree⟩ s).1.rem =
            (RunMerger.init (X.record s.curr).outdegree).total_size +
              runsTotal (X.record s.curr).body + 1 := hacct1
        omega
      rcases spliceWalk_spec rest s.curr (spliceOne s.curr
          ⟨X, X.record s.curr, (X.record s.curr).body,
            RunMerger.init (X.record s.curr).outdegree⟩ s).1 [(spliceOne s.curr
          ⟨X, X.record s.curr, (X.record s.curr).body,
            RunMerger.init (X.record s.curr).outdegree⟩ s).2] 1
          (hok1 (init_ok _))
          hacct2
          (sized_transfer _ _ hbd hsized)
          (by rw [hcompeq, hlen1]; exact hcs)
          (by
            intro q hq
            rw [hcompeq, hlen1]
            exact hcomp q (List.mem_cons_of_mem _ hq))
        with ⟨g1, g2, g3, g4⟩
      refine ⟨g1.trans hhd, by rw [g2, hlen1], ?_, g4⟩
      rw [g3]
      unfold sizesTotal
      rw [sizes_of_bodyData _ _ hbd]
      have hsx : (X.bwt.map DynamicRecord.size).sum = sizesTotal X := rfl
      rw [hsx]
      simp only [List.length_cons]
      omega

theorem foldl_preserves_bodyData {γ : Type}
    (step : (DynamicGBWT × Nat) → γ → DynamicGBWT × Nat)
    (hstep : ∀ p ie, (step p ie).1.bwt.map recBodyData = p.1.bwt.map recBodyData ∧
      (step p ie).1.header = p.1.header) :
    ∀ (l : List γ) (p : DynamicGBWT × Nat),
      (l.foldl step p).1.bwt.map recBodyData = p.1.bwt.map recBodyData ∧
      (l.foldl step p).1.header = p.1.header := by
  intro l
  induction l with
  | nil => intro p; exact ⟨rfl, rfl⟩
  | cons a rest ih =>
      intro p
      rw [List.foldl_cons]
      rcases ih (step p a) with ⟨h1, h2⟩
      rcases hstep p a with ⟨h3, h4⟩
      exact ⟨h1.trans h3, h2.trans h4⟩

theorem rebuildFor_bodyData (X : DynamicGBWT) (nx : Nat) :
    (rebuildFor X nx).bwt.map recBodyData = X.bwt.map recBodyData ∧
    (rebuildFor X nx).header = X.header := by
  unfold rebuildFor
  refine foldl_preserves_bodyData _ ?_ _ _
  intro p ie
  refine ⟨?_, rfl⟩
  simp only [DynamicGBWT.setRecord]
  exact set_map_same recBodyData default _ _ _ rfl

theorem rebuildOffsets_bodyData (X : DynamicGBWT) (seqs : List Sequence) :
    (rebuildOffsets X seqs).bwt.map recBodyData = X.bwt.map recBodyData ∧
    (rebuildOffsets X seqs).header = X.header := by
  unfold rebuildOffsets
  refine foldl_preserves_bodyData _ ?_ seqs (X, X.sigma)
  intro p q
  split
  · exact ⟨rfl, rfl⟩
  · exact rebuildFor_bodyData p.1 q.next

theorem coalesce_sum : ∀ l : List (Nat × Nat), runsTotal (coalesce l) = runsTotal l := by
  intro l
  induction l with
  | nil => rfl
  | cons r rest ih =>
      obtain ⟨c, len⟩ := r
      rw [coalesce]
      cases hco : coalesce rest with
      | nil =>
          rw [hco] at ih
          dsimp only
          simp [runsTotal] at ih ⊢
          omega
      | cons r2 rest2 =>
          obtain ⟨c2, l2⟩ := r2
          rw [hco] at ih
          dsimp only
          by_cases hcc : c = c2
          · rw [if_pos hcc]
            simp [runsTotal] at ih ⊢
            omega
          · rw [if_neg hcc]
            simp [runsTotal] at ih ⊢
            omega

theorem recode_sized (r : DynamicRecord) (h : recordSized r) :
    recordSized r.recode := by
  unfold recordSized at h ⊢
  unfold DynamicRecord.recode
  simp only []
  rw [coalesce_sum]
  have hmap : runsTotal (r.body.map (fun run =>
      ((sortEdges r.outgoing).findIdx (fun e => e.1 = r.successor run.1), run.2)))
      = runsTotal r.body := by
    unfold runsTotal
    rw [List.map_map]
    rfl
  rw [hmap]
  exact h

theorem recodeAll_inv (X : DynamicGBWT) (h : ∀ r ∈ X.bwt, recordSized r) :
    (∀ r ∈ X.recodeAll.bwt, recordSized r) ∧
    sizesTotal X.recodeAll = sizesTotal X ∧
    X.recodeAll.header = X.header := by
  refine ⟨?_, ?_, rfl⟩
  · intro r hr
    unfold DynamicGBWT.recodeAll at hr
    simp only [] at hr
    rcases List.mem_map.mp hr with ⟨r0, hr0, hre⟩
    rw [← hre]
    exact recode_sized r0 (h r0 hr0)
  · unfold sizesTotal DynamicGBWT.recodeAll
    simp only []
    rw [List.map_map]
    rfl

theorem sizeInvariant_mk (X : DynamicGBWT)
    (h1 : ∀ r ∈ X.bwt, recordSized r) (h2 : X.header.size = sizesTotal X) :
    sizeInvariant X := by
  refine ⟨h1, h2, ?_⟩
  unfold sizesTotal
  exact congrArg List.sum (List.map_congr_left (fun r hr => h1 r hr))

theorem spliceAll_cn (X : DynamicGBWT) (l : List Sequence) :
    (spliceAll X l).2.map seqCN = l.map seqCN :=
  shape_map_eq _ _ (fun t => (t.2.1, t.2.2.1)) (spliceAll_shape X l)

theorem cn_transfer (l1 l2 : List Sequence) (h : l1.map seqCN = l2.map seqCN) :
    ∀ s ∈ l1, ∃ s0 ∈ l2, s0.curr = s.curr ∧ s0.next = s.next := by
  intro s hs
  have : seqCN s ∈ l2.map seqCN := by
    rw [← h]
    exact List.mem_map_of_mem _ hs
  rcases List.mem_map.mp this with ⟨s0, hs0, heq⟩
  unfold seqCN at heq
  exact ⟨s0, hs0, (congrArg Prod.fst heq : _), (congrArg Prod.snd heq : _)⟩

/-- Curr/next pairs are untouched by the outgoing-offset translation. -/
theorem translateOffsets_cn (X : DynamicGBWT) (l : List Sequence) :
    (translateOffsets X l).map seqCN = l.map seqCN := by
  unfold translateOffsets
  rw [List.map_map]
  exact List.map_congr_left (fun s _ => rfl)

theorem insertLoop_sizeInv (np ap : List Sequence → List Sequence)
    (ofs len : Nat) (hlen : 0 < len)
    (hnp : ∀ l, (np l).map seqCN = l.map seqCN)
    (hap : ∀ (l : List Sequence) (s : Sequence), s ∈ ap l →
      (∃ s0 ∈ l, s.curr = s0.next) ∧ (s.next = 0 ∨ s.next - ofs < len)) :
    ∀ (fuel : Nat) (X : DynamicGBWT) (seqs : List Sequence) (its : Nat)
      (r : Nat × DynamicGBWT),
      X.header.offset = ofs → X.bwt.length = len →
      (∀ q ∈ X.bwt, recordSized q) → X.header.size = sizesTotal X →
      (∀ s ∈ seqs, (s.curr = 0 ∨ s.curr - ofs < len) ∧
        (s.next = 0 ∨ s.next - ofs < len)) →
      insertLoop np ap fuel X seqs its = some r →
      (∀ q ∈ r.2.bwt, recordSized q) ∧ r.2.header.size = sizesTotal r.2 ∧
      r.2.header.offset = ofs ∧ r.2.bwt.length = len := by
  intro fuel
  induction fuel with
  | zero => intro X seqs its r _ _ _ _ _ h; cases h
  | succ f ih =>
      intro X seqs its r hofs hlenX hsized hsz hseqs hsome
      have hcomp : ∀ s ∈ seqs, X.comp s.curr < X.bwt.length := by
        intro s hs
        rcases hseqs s hs with ⟨h1, _⟩
        unfold DynamicGBWT.comp
        rw [hofs, hlenX]
        by_cases h0 : s.curr = ENDMARKER
        · rw [if_pos h0]
          exact hlen
        · rw [if_neg h0]
          rcases h1 with h0x | hlt
          · exact absurd h0x h0
          · exact hlt
      rcases spliceAll_spec X seqs hsized hcomp with ⟨hh1, hl1, hs1, hr1⟩
      have hcn1 : (spliceAll X seqs).2.map seqCN = seqs.map seqCN :=
        spliceAll_cn X seqs
      have hlen2 : (spliceAll X seqs).2.length = seqs.length :=
        map_eq_length _ _ _ hcn1
      rw [insertLoop] at hsome
      set X2 : DynamicGBWT := { (spliceAll X seqs).1 with
        header := { (spliceAll X seqs).1.header with
          size := (spliceAll X seqs).1.header.size +
            (spliceAll X seqs).2.length } } with hX2
      have hX2o : X2.header.offset = ofs := by
        show (spliceAll X seqs).1.header.offset = ofs
        rw [hh1, hofs]
      have hX2l : X2.bwt.length = len := by
        show (spliceAll X seqs).1.bwt.length = len
        rw [hl1, hlenX]
      have hX2szd : ∀ q ∈ X2.bwt, recordSized q := by
        show ∀ q ∈ (spliceAll X seqs).1.bwt, recordSized q
        exact hr1
      have hX2inv : X2.header.size = sizesTotal X2 := by
        show (spliceAll X seqs).1.header.size + (spliceAll X seqs).2.length =
          sizesTotal X2
        have hsX2 : sizesTotal X2 = sizesTotal (spliceAll X seqs).1 := rfl
        rw [hsX2, hs1, hlen2]
        have hhs : (spliceAll X seqs).1.header.size = X.header.size := by
          rw [hh1]
        rw [hhs, hsz]
      set seqs4 := (sortSeqs (np (spliceAll X seqs).2)).dropWhile
        (fun s => s.next = ENDMARKER) with hs4
      by_cases hempty : seqs4.isEmpty
      · rw [if_pos hempty] at hsome
        have hr : r = (its + 1, X2) :=
          ((Option.some.injEq _ _).mp hsome).symm
        rw [hr]
        exact ⟨hX2szd, hX2inv, hX2o, hX2l⟩
      · rw [if_neg hempty] at hsome
        set X3 := rebuildOffsets X2 seqs4 with hX3
        set seqs6 := ap (translateOffsets X3 seqs4) with hs6
        have hb3 : X3.bwt.map recBodyData = X2.bwt.map recBodyData := by
          rw [hX3]
          exact (rebuildOffsets_bodyData X2 seqs4).1
        have hh3 : X3.header = X2.header := by
          rw [hX3]
          exact (rebuildOffsets_bodyData X2 seqs4).2
        have h1 : X3.header.offset = ofs := by
          rw [hh3, hX2o]
        have h2 : X3.bwt.length = len := by
          rw [map_eq_length _ _ _ hb3, hX2l]
        have h3 : ∀ q ∈ X3.bwt, recordSized q :=
          sized_transfer _ _ hb3 hX2szd
        have h4 : X3.header.size = sizesTotal X3 := by
          have hst : sizesTotal X3 = sizesTotal X2 := by
            unfold sizesTotal
            exact sizes_of_bodyData _ _ hb3
          rw [hh3, hst, hX2inv]
        have h5 : ∀ s ∈ seqs6, (s.curr = 0 ∨ s.curr - ofs < len) ∧
            (s.next = 0 ∨ s.next - ofs < len) := by
          intro s hs
          rw [hs6] at hs
          rcases hap (translateOffsets X3 seqs4) s hs with
            ⟨⟨s0, hs0, hcurr⟩, hnext⟩
          rcases cn_transfer _ _ (translateOffsets_cn X3 seqs4) s0 hs0 with
            ⟨s1, hs1x, _, hn01⟩
          rw [hs4] at hs1x
          have hs1mem : s1 ∈ np (spliceAll X seqs).2 :=
            (sortSeqs_perm _).mem_iff.mp
              ((List.dropWhile_sublist _).subset hs1x)
          rcases cn_transfer _ _
              ((hnp ((spliceAll X seqs).2)).trans hcn1) s1 hs1mem with
            ⟨s2, hs2x, _, hn12⟩
          refine ⟨?_, hnext⟩
          rw [hcurr, ← hn01, ← hn12]
          exact (hseqs s2 hs2x).2
        exact ih X3 seqs6 (its + 1) r h1 h2 h3 h4 h5 hsome

theorem foldl_set_length {α : Type} (f : Nat → Nat) (g : Nat → α) :
    ∀ (cs : List Nat) (l0 : List α),
      (cs.foldl (fun acc c => acc.set (f c) (g c)) l0).length = l0.length := by
  intro cs
  induction cs with
  | nil => intro l0; rfl
  | cons c0 rest ih =>
      intro l0
      rw [List.foldl_cons, ih, List.length_set]

theorem mem_foldl_set {α : Type} (f : Nat → Nat) (g : Nat → α) :
    ∀ (cs : List Nat) (l0 : List α) (q : α),
      q ∈ cs.foldl (fun acc c => acc.set (f c) (g c)) l0 →
      q ∈ l0 ∨ ∃ c ∈ cs, q = g c := by
  intro cs
  induction cs with
  | nil => intro l0 q h; exact Or.inl h
  | cons c0 rest ih =>
      intro l0 q h
      rw [List.foldl_cons] at h
      rcases ih _ q h with hq | ⟨c, hc, hq⟩
      · rcases List.mem_or_eq_of_mem_set hq with h1 | h1
        · exact Or.inl h1
        · exact Or.inr ⟨c0, List.mem_cons_self _ _, h1⟩
      · exact Or.inr ⟨c, List.mem_cons_of_mem _ hc, hq⟩

theorem sizes_foldl_set (g : Nat → DynamicRecord) (f : Nat → Nat) :
    ∀ (l : List Nat) (acc : List DynamicRecord),
      (∀ c ∈ l, f c < acc.length) →
      (∀ c ∈ l, (acc.getD (f c) default).size = 0) →
      List.Pairwise (fun a b => f a ≠ f b) l →
      ((l.foldl (fun a c => a.set (f c) (g c)) acc).map DynamicRecord.size).sum
        = (acc.map DynamicRecord.size).sum +
          (l.map (fun c => (g c).size)).sum := by
  intro l
  induction l with
  | nil => intro acc _ _ _; simp
  | cons c0 rest ih =>
      intro acc hlt hzero hpw
      rcases List.pairwise_cons.mp hpw with ⟨hp1, hp2⟩
      simp only [List.foldl_cons, List.map_cons, List.sum_cons]
      have hc0 : f c0 < acc.length := hlt c0 (List.mem_cons_self _ _)
      rw [ih (acc.set (f c0) (g c0))
        (fun c hc => by
          rw [List.length_set]
          exact hlt c (List.mem_cons_of_mem _ hc))
        (fun c hc => by
          rw [getD_set_ne _ _ _ _ _ (hp1 c hc)]
          exact hzero c (List.mem_cons_of_mem _ hc))
        hp2]
      have hsum := sum_set_nat (acc.map DynamicRecord.size) (f c0) ((g c0).size)
        (by rw [List.length_map]; exact hc0)
      rw [← List.map_set] at hsum
      rw [map_getD_size _ _ hc0] at hsum
      have hz := hzero c0 (List.mem_cons_self _ _)
      omega

theorem getD_range'_sum (l : List DynamicRecord) :
    ∀ (n k : Nat), k + n = l.length →
      ((List.range' k n).map (fun c => (l.getD c default).size)).sum
        = ((l.drop k).map DynamicRecord.size).sum := by
  intro n
  induction n with
  | zero =>
      intro k h
      rw [List.drop_eq_nil_of_le (by omega)]
      rfl
  | succ m ih =>
      intro k h
      have hr : List.range' k (m + 1) = k :: List.range' (k + 1) m := rfl
      rw [hr]
      simp only [List.map_cons, List.sum_cons]
      rw [ih (k + 1) (by omega)]
      have hk : k < l.length := by omega
      rw [List.drop_eq_getElem_cons hk]
      simp only [List.map_cons, List.sum_cons]
      rw [List.getD_eq_getElem _ _ hk]

theorem getD_replicate_rec (n j : Nat) :
    (List.replicate n (default : DynamicRecord)).getD j default = default := by
  by_cases hj : j < n
  · rw [List.getD_eq_getElem _ _ (by simpa using hj)]
    simp
  · exact List.getD_eq_default _ _ (by simpa using Nat.le_of_not_lt hj)

theorem resize_sizeInv (X : DynamicGBWT) (no0 ns0 : Nat) (Y : DynamicGBWT)
    (hres : X.resize no0 ns0 = some Y)
    (hlenX : X.bwt.length = X.effective)
    (hsized : ∀ q ∈ X.bwt, recordSized q) :
    (∀ q ∈ Y.bwt, recordSized q) ∧
    sizesTotal Y = sizesTotal X ∧
    Y.header.size = X.header.size ∧
    Y.header.alphabet_size = X.adjSigma ns0 ∧
    Y.bwt.length = Y.effective ∧
    (Y.header.offset = 0 ∨ Y.header.offset < Y.header.alphabet_size) ∧
    Y.header.sequences = X.header.sequences := by
  have hdz : (default : DynamicRecord).size = 0 := rfl
  have hgetDsized : ∀ c, recordSized (X.bwt.getD c default) := by
    intro c
    by_cases hc : c < X.bwt.length
    · exact hsized _ (getD_mem_of_lt _ _ _ hc)
    · rw [List.getD_eq_default _ _ (Nat.le_of_not_lt hc)]
      exact rfl
  have heffdef : X.effective = X.header.alphabet_size - X.header.offset := rfl
  have hsigdef : X.sigma = X.header.alphabet_size := rfl
  have hsigle : X.sigma ≤ X.adjSigma ns0 := by
    rw [adjSigma_eq_max]
    exact Nat.le_max_left _ _
  simp only [DynamicGBWT.resize] at hres
  by_cases hfail : X.adjOffset no0 ns0 > 0 ∧ X.adjOffset no0 ns0 ≥ X.adjSigma ns0
  · rw [if_pos hfail] at hres
    cases hres
  rw [if_neg hfail] at hres
  have hok : X.adjOffset no0 ns0 = 0 ∨ X.adjOffset no0 ns0 < X.adjSigma ns0 := by
    by_cases h0 : X.adjOffset no0 ns0 = 0
    · exact Or.inl h0
    · refine Or.inr (by_contra fun hlt => ?_)
      exact hfail ⟨Nat.pos_of_ne_zero h0, Nat.le_of_not_lt hlt⟩
  have hno2 : 2 ≤ X.effective → X.adjOffset no0 ns0 ≤ X.header.offset := by
    intro h2
    rw [DynamicGBWT.adjOffset]
    split
    · exact Nat.le_refl _
    · rename_i hcond
      push_neg at hcond
      exact hcond.1 (by omega)
  by_cases hch : X.adjOffset no0 ns0 ≠ X.header.offset ∨ X.adjSigma ns0 ≠ X.sigma
  swap
  · rw [if_neg hch] at hres
    cases hres
    push_neg at hch
    refine ⟨hsized, rfl, rfl, hch.2.symm, hlenX.trans ?_, ?_, rfl⟩
    · unfold DynamicGBWT.effective
      rfl
    · rcases hok with h0 | hlt
      · exact Or.inl (hch.1.symm.trans h0)
      · right
        rw [hch.1, hch.2, hsigdef] at hlt
        exact hlt
  rw [if_pos hch] at hres
  cases hres
  set no := X.adjOffset no0 ns0 with hno
  set ns := X.adjSigma ns0 with hns
  set base := List.replicate (ns - no) (default : DynamicRecord) with hbase
  set b1 := if X.effective > 0 then base.set 0 (X.bwt.getD 0 default) else base
    with hb1
  set b2 := (List.range' 1 (X.effective - 1)).foldl
    (fun acc c => acc.set (c + X.header.offset - no) (X.bwt.getD c default)) b1
    with hb2
  have hbaselen : base.length = ns - no := List.length_replicate _ _
  have hb1len : b1.length = ns - no := by
    rw [hb1]
    split
    · rw [List.length_set, hbaselen]
    · exact hbaselen
  have hb2len : b2.length = ns - no := by
    rw [hb2, foldl_set_length, hb1len]
  have hmemrange : ∀ c ∈ List.range' 1 (X.effective - 1),
      1 ≤ c ∧ c < X.effective ∧ no ≤ X.header.offset := by
    intro c hc
    have hm := List.mem_range'_1.mp hc
    have h2 : 2 ≤ X.effective := by omega
    exact ⟨hm.1, by omega, hno2 h2⟩
  refine ⟨?_, ?_, rfl, rfl, ?_, ?_, rfl⟩
  · intro q hq
    show recordSized q
    rcases mem_foldl_set _ _ _ _ q hq with hq1 | ⟨c, _, hq1⟩
    · rw [hb1] at hq1
      have hqb : q ∈ base ∨ q = X.bwt.getD 0 default := by
        by_cases heff : X.effective > 0
        · rw [if_pos heff] at hq1
          exact List.mem_or_eq_of_mem_set hq1
        · rw [if_neg heff] at hq1
          exact Or.inl hq1
      rcases hqb with hqb | hqb
      · rw [List.eq_of_mem_replicate hqb]
        exact rfl
      · rw [hqb]
        exact hgetDsized 0
    · rw [hq1]
      exact hgetDsized c
  · show (b2.map DynamicRecord.size).sum = sizesTotal X
    by_cases heff : X.effective > 0
    · have hbounds : 0 < ns - no := by
        rcases hok with h0 | hlt <;> omega
      have hfold := sizes_foldl_set
        (fun c => X.bwt.getD c default)
        (fun c => c + X.header.offset - no)
        (List.range' 1 (X.effective - 1)) b1
        (fun c hc => by
          rcases hmemrange c hc with ⟨h1, h2, h3⟩
          show c + X.header.offset - no < b1.length
          rw [hb1len]
          omega)
        (fun c hc => by
          rcases hmemrange c hc with ⟨h1, h2, h3⟩
          have hne0 : (0 : Nat) ≠ c + X.header.offset - no := by omega
          rw [hb1, if_pos heff, getD_set_ne _ _ _ _ _ hne0,
            getD_replicate_rec]
          exact hdz)
        (by
          refine List.Pairwise.imp_of_mem ?_ (List.pairwise_lt_range' _ _)
          intro a b ha hb hab
          rcases hmemrange a ha with ⟨_, _, h3⟩
          show a + X.header.offset - no ≠ b + X.header.offset - no
          omega)
      rw [hb2, hfold]
      have hb1sum : (b1.map DynamicRecord.size).sum =
          (X.bwt.getD 0 default).size := by
        rw [hb1, if_pos heff]
        have h0 : 0 < base.length := by rw [hbaselen]; omega
        have hsum := sum_set_nat (base.map DynamicRecord.size) 0
          ((X.bwt.getD 0 default).size) (by rw [List.length_map]; exact h0)
        rw [← List.map_set] at hsum
        rw [map_getD_size _ _ h0] at hsum
        rw [getD_replicate_rec] at hsum
        have hrepsum : (base.map DynamicRecord.size).sum = 0 := by
          rw [hbase, List.map_replicate]
          simp [hdz]
        rw [hrepsum] at hsum
        omega
      rw [hb1sum]
      have hrange : ∀ c ∈ List.range' 1 (X.effective - 1),
          (X.bwt.getD c default).size =
            (fun c => (X.bwt.getD c default).size) c := fun _ _ => rfl
      have hdrop := getD_range'_sum X.bwt (X.effective - 1) 1 (by omega)
      rw [hdrop]
      have h0len : 0 < X.bwt.length := by omega
      show (X.bwt.getD 0 default).size +
        ((X.bwt.drop 1).map DynamicRecord.size).sum = sizesTotal X
      have hsplit : X.bwt = X.bwt.getD 0 default :: X.bwt.drop 1 := by
        conv_lhs => rw [← List.drop_zero X.bwt]
        rw [List.drop_eq_getElem_cons h0len, List.getD_eq_getElem _ _ h0len]
      unfold sizesTotal
      conv_rhs => rw [hsplit]
      simp only [List.map_cons, List.sum_cons]
    · have heff0 : X.effective = 0 := by omega
      have hbwt : X.bwt = [] :=
        List.eq_nil_of_length_eq_zero (by rw [hlenX, heff0])
      have hr0 : List.range' 1 (X.effective - 1) = [] := by
        rw [heff0]
        rfl
      rw [hb2, hr0]
      simp only [List.foldl_nil]
      rw [hb1, if_neg heff, hbase, List.map_replicate]
      show (List.replicate (ns - no) ((default : DynamicRecord).size)).sum =
        sizesTotal X
      rw [hdz]
      unfold sizesTotal
      rw [hbwt]
      simp
  · show b2.length = ns - no
    exact hb2len
  · show no = 0 ∨ no < ns
    exact hok


theorem nextPositionText_cn (l : List Sequence) :
    (nextPositionText l).map seqCN = l.map seqCN := by
  unfold nextPositionText
  rw [List.map_map]
  exact List.map_congr_left (fun s _ => rfl)

theorem advancePositionText_spec (text : List Nat) (ofs len : Nat)
    (hbound : ∀ t ∈ text, t = 0 ∨ t - ofs < len) :
    ∀ (l : List Sequence) (s : Sequence), s ∈ advancePositionText text l →
      (∃ s0 ∈ l, s.curr = s0.next) ∧ (s.next = 0 ∨ s.next - ofs < len) := by
  intro l s hs
  unfold advancePositionText at hs
  rcases List.mem_map.mp hs with ⟨s0, hs0, he⟩
  refine ⟨⟨s0, hs0, by rw [← he]⟩, ?_⟩
  rw [← he]
  show text.getD s0.pos 0 = 0 ∨ text.getD s0.pos 0 - ofs < len
  by_cases hp : s0.pos < text.length
  · exact hbound _ (getD_mem_of_lt _ _ _ hp)
  · rw [List.getD_eq_default _ _ (Nat.le_of_not_lt hp)]
    exact Or.inl rfl

theorem insertText_sizeInv (X : DynamicGBWT) (text : List Nat)
    (Y : DynamicGBWT)
    (hlenX : X.bwt.length = X.effective)
    (hsized : ∀ q ∈ X.bwt, recordSized q)
    (hsz : X.header.size = sizesTotal X)
    (hres : X.insertText text = some Y) :
    (∀ q ∈ Y.bwt, recordSized q) ∧ Y.header.size = sizesTotal Y := by
  rw [DynamicGBWT.insertText] at hres
  by_cases hemp : text.isEmpty
  · rw [if_pos hemp] at hres
    cases hres
    exact ⟨hsized, hsz⟩
  rw [if_neg hemp] at hres
  by_cases hlast : text.getLastD 0 ≠ ENDMARKER
  · rw [if_pos hlast] at hres
    cases hres
  rw [if_neg hlast] at hres
  rcases hr2 : (DynamicGBWT.insertX1 X text).resize
      (textMinF X text - 1) (textMax X text + 1) with _ | X2
  · rw [hr2] at hres
    cases hres
  rw [hr2] at hres
  simp only [] at hres
  rcases hloop : insertLoop nextPositionText (advancePositionText text)
      (textFuel text (DynamicGBWT.insertSeqs X text)) X2
      (DynamicGBWT.insertSeqs X text) 0 with _ | r
  · rw [hloop] at hres
    cases hres
  rw [hloop] at hres
  cases hres
  have hX1len : (DynamicGBWT.insertX1 X text).bwt.length =
      (DynamicGBWT.insertX1 X text).effective := hlenX
  have hX1sized : ∀ q ∈ (DynamicGBWT.insertX1 X text).bwt, recordSized q :=
    hsized
  rcases resize_sizeInv _ _ _ _ hr2 hX1len hX1sized with
    ⟨h2sized, h2tot, h2size, h2sig, h2len, h2ok, _⟩
  have h2sz : X2.header.size = sizesTotal X2 := by
    rw [h2size, h2tot]
    show X.header.size = sizesTotal X
    exact hsz
  have hsig2 : textMax X text + 1 ≤ X2.header.alphabet_size := by
    rw [h2sig, adjSigma_eq_max]
    exact Nat.le_max_right _ _
  have heff2 : X2.effective = X2.header.alphabet_size - X2.header.offset := rfl
  have hlenpos : 0 < X2.bwt.length := by omega
  have hbound : ∀ t ∈ text, t = 0 ∨ t - X2.header.offset < X2.bwt.length := by
    intro t ht
    have hle : t ≤ textMax X text := by
      unfold textMax
      exact mem_le_foldl_nmax _ _ _ ht
    by_cases h0 : t = 0
    · exact Or.inl h0
    · right
      omega
  have hseqs0 : ∀ s ∈ DynamicGBWT.insertSeqs X text,
      (s.curr = 0 ∨ s.curr - X2.header.offset < X2.bwt.length) ∧
      (s.next = 0 ∨ s.next - X2.header.offset < X2.bwt.length) := by
    intro s hs
    rcases buildSeqsAux_inv text 0 true X.sequences s hs with ⟨_, h2, h3, h4⟩
    rw [Nat.sub_zero] at h2 h3
    refine ⟨Or.inl h4, ?_⟩
    rw [h3]
    exact hbound _ (getD_mem_of_lt _ _ _ h2)
  rcases insertLoop_sizeInv nextPositionText (advancePositionText text)
      X2.header.offset X2.bwt.length hlenpos
      (fun l => nextPositionText_cn l)
      (advancePositionText_spec text _ _ hbound)
      _ X2 (DynamicGBWT.insertSeqs X text) 0 r rfl rfl h2sized h2sz hseqs0
      hloop with ⟨hr2sized, hr2sz, _, _⟩
  rcases recodeAll_inv r.2 hr2sized with ⟨hrec1, hrec2, hrec3⟩
  refine ⟨hrec1, ?_⟩
  rw [congrArg GBWTHeader.size hrec3, hrec2]
  exact hr2sz


theorem record_mem_or_default (src : DynamicGBWT) (m : Nat) :
    src.record m ∈ src.bwt ∨ src.record m = default := by
  unfold DynamicGBWT.record
  by_cases h : src.comp m < src.bwt.length
  · exact Or.inl (getD_mem_of_lt _ _ _ h)
  · exact Or.inr (List.getD_eq_default _ _ (Nat.le_of_not_lt h))

theorem successor_cases (r : DynamicRecord) (k : Nat) :
    r.successor k = 0 ∨ ∃ e ∈ r.outgoing, r.successor k = e.1 := by
  unfold DynamicRecord.successor
  by_cases h : k < r.outgoing.length
  · exact Or.inr ⟨_, getD_mem_of_lt _ _ _ h, rfl⟩
  · rw [List.getD_eq_default _ _ (Nat.le_of_not_lt h)]
    exact Or.inl rfl

theorem nextPosWalk_cn (src : DynamicGBWT) :
    ∀ (l : List Sequence) (curr : Nat)
      (w : List (Nat × Nat) × Nat × Nat × List (Nat × Nat))
      (acc : List Sequence),
      (nextPosWalk src curr w acc l).map seqCN =
        acc.map seqCN ++ l.map seqCN := by
  intro l
  induction l with
  | nil => intro curr w acc; simp [nextPosWalk]
  | cons s rest ih =>
      intro curr w acc
      rw [nextPosWalk]
      by_cases hc : s.curr = curr
      · rw [if_pos hc, ih]
        have hq : seqCN (nextPosStep w s).2 = seqCN s := rfl
        simp [hq]
      · rw [if_neg hc, ih]
        have hq : seqCN (nextPosStep (idxInit (src.record s.curr)) s).2 =
            seqCN s := rfl
        simp [hq]

theorem nextPositionIndex_cn (src : DynamicGBWT) (l : List Sequence) :
    (nextPositionIndex src l).map seqCN = l.map seqCN := by
  cases l with
  | nil => rfl
  | cons s rest =>
      simp only [nextPositionIndex]
      rw [nextPosWalk_cn]
      have hq : seqCN (nextPosStep (idxInit (src.record s.curr)) s).2 =
          seqCN s := rfl
      simp [hq]

theorem advPosWalk_spec (src : DynamicGBWT) :
    ∀ (l : List Sequence) (nxt : Nat) (crec : DynamicRecord)
      (w : List (Nat × Nat) × Nat × Nat) (acc : List Sequence),
      (crec ∈ src.bwt ∨ crec = default) →
      ∀ s2 ∈ advPosWalk src nxt crec w acc l,
        s2 ∈ acc ∨ ∃ s0 ∈ l, s2.curr = s0.next ∧
          (s2.next = 0 ∨ ∃ r2 ∈ src.bwt, ∃ e ∈ r2.outgoing, s2.next = e.1) := by
  intro l
  induction l with
  | nil => intro nxt crec w acc _ s2 hs; exact Or.inl hs
  | cons s rest ih =>
      intro nxt crec w acc hcrec s2 hs
      rw [advPosWalk] at hs
      by_cases hc : s.next = nxt
      · rw [if_pos hc] at hs
        rcases ih _ _ _ _ hcrec s2 hs with hmem | ⟨s0, hs0, h1, h2⟩
        · rcases List.mem_append.mp hmem with h | h
          · exact Or.inl h
          · have he : s2 = (advPosStep crec w s).2 := List.mem_singleton.mp h
            right
            refine ⟨s, List.mem_cons_self _ _, by rw [he]; exact rfl, ?_⟩
            rcases successor_cases crec ((walkTo w.1 w.2.1 w.2.2 s.pos).2.1)
              with h0 | ⟨e, hemem, hse⟩
            · left
              rw [he]
              exact h0
            · rcases hcrec with hin | hdef
              · right
                exact ⟨crec, hin, e, hemem, by rw [he]; exact hse⟩
              · rw [hdef] at hemem
                cases hemem
        · exact Or.inr ⟨s0, List.mem_cons_of_mem _ hs0, h1, h2⟩
      · rw [if_neg hc] at hs
        rcases ih _ _ _ _ (record_mem_or_default src s.next) s2 hs with
          hmem | ⟨s0, hs0, h1, h2⟩
        · rcases List.mem_append.mp hmem with h | h
          · exact Or.inl h
          · have he : s2 = (advPosStep (src.record s.next)
                (advInit (src.record s.next)) s).2 := List.mem_singleton.mp h
            right
            refine ⟨s, List.mem_cons_self _ _, by rw [he]; exact rfl, ?_⟩
            rcases successor_cases (src.record s.next)
                ((walkTo (advInit (src.record s.next)).1
                  (advInit (src.record s.next)).2.1
                  (advInit (src.record s.next)).2.2 s.pos).2.1)
              with h0 | ⟨e, hemem, hse⟩
            · left
              rw [he]
              exact h0
            · rcases record_mem_or_default src s.next with hin | hdef
              · right
                exact ⟨src.record s.next, hin, e, hemem, by rw [he]; exact hse⟩
              · rw [hdef] at hemem
                cases hemem
        · exact Or.inr ⟨s0, List.mem_cons_of_mem _ hs0, h1, h2⟩

theorem advancePositionIndex_spec (src : DynamicGBWT) :
    ∀ (l : List Sequence) (s2 : Sequence), s2 ∈ advancePositionIndex src l →
      (∃ s0 ∈ l, s2.curr = s0.next) ∧
      (s2.next = 0 ∨ ∃ r2 ∈ src.bwt, ∃ e ∈ r2.outgoing, s2.next = e.1) := by
  intro l s2 hs
  cases l with
  | nil => cases hs
  | cons s rest =>
      simp only [advancePositionIndex] at hs
      rcases advPosWalk_spec src rest s.next (src.record s.next) _ _
          (record_mem_or_default src s.next) s2 hs with
        hmem | ⟨s0, hs0, h1, h2⟩
      · have he : s2 = (advPosStep (src.record s.next)
            (advInit (src.record s.next)) s).2 := List.mem_singleton.mp hmem
        refine ⟨⟨s, List.mem_cons_self _ _, by rw [he]; exact rfl⟩, ?_⟩
        rcases successor_cases (src.record s.next)
            ((walkTo (advInit (src.record s.next)).1
              (advInit (src.record s.next)).2.1
              (advInit (src.record s.next)).2.2 s.pos).2.1)
          with h0 | ⟨e, hemem, hse⟩
        · left
          rw [he]
          exact h0
        · rcases record_mem_or_default src s.next with hin | hdef
          · right
            exact ⟨src.record s.next, hin, e, hemem, by rw [he]; exact hse⟩
          · rw [hdef] at hemem
            cases hemem
      · exact ⟨⟨s0, List.mem_cons_of_mem _ hs0, h1⟩, h2⟩

theorem makeBatch_spec (em : DynamicRecord) :
    ∀ (fuel : Nat) (rem : List (Nat × Nat)) (ro so limit idn : Nat)
      (acc : List Sequence) (s : Sequence),
      s ∈ (makeBatch em fuel rem ro so limit idn acc).1 →
      s ∈ acc ∨ (s.curr = 0 ∧
        (s.next = 0 ∨ ∃ e ∈ em.outgoing, s.next = e.1)) := by
  intro fuel
  induction fuel with
  | zero => intro rem ro so limit idn acc s hs; exact Or.inl hs
  | succ f ih =>
      intro rem ro so limit idn acc s hs
      rw [makeBatch.eq_def] at hs
      rcases rem with _ | ⟨⟨c, l⟩, rest⟩
      · simp only [] at hs
        by_cases hso : so < limit
        · rw [if_pos hso] at hs
          exact Or.inl hs
        · rw [if_neg hso] at hs
          exact Or.inl hs
      · simp only [] at hs
        by_cases hso : so < limit
        swap
        · rw [if_neg hso] at hs
          exact Or.inl hs
        · rw [if_pos hso] at hs
          by_cases hro : ro ≥ l
          · rw [if_pos hro] at hs
            exact ih _ _ _ _ _ _ s hs
          · rw [if_neg hro] at hs
            rcases ih _ _ _ _ _ _ s hs with hmem | hP
            · rcases List.mem_append.mp hmem with h | h
              · exact Or.inl h
              · have he : s = Sequence.ofNode (em.successor c) idn so :=
                  List.mem_singleton.mp h
                right
                refine ⟨by rw [he]; rfl, ?_⟩
                rcases successor_cases em c with h0 | ⟨e, hemem, hse⟩
                · left
                  rw [he]
                  exact h0
                · right
                  exact ⟨e, hemem, by rw [he]; exact hse⟩
            · exact Or.inr hP

theorem mergeLoop_sizeInv (src : DynamicGBWT) (em : DynamicRecord) (bs : Nat)
    (ofs len : Nat) (hlen : 0 < len)
    (hem : em ∈ src.bwt ∨ em = default)
    (hsrc : ∀ r2 ∈ src.bwt, ∀ e ∈ r2.outgoing, e.1 < src.sigma)
    (hsig : ∀ v, v < src.sigma → v = 0 ∨ v - ofs < len) :
    ∀ (fuel : Nat) (X : DynamicGBWT) (rem : List (Nat × Nat)) (ro so : Nat)
      (Y : DynamicGBWT),
      X.header.offset = ofs → X.bwt.length = len →
      (∀ q ∈ X.bwt, recordSized q) → X.header.size = sizesTotal X →
      mergeLoop src em bs fuel X rem ro so = some Y →
      (∀ q ∈ Y.bwt, recordSized q) ∧ Y.header.size = sizesTotal Y := by
  intro fuel
  induction fuel with
  | zero => intro X rem ro so Y _ _ _ _ h; cases h
  | succ f ih =>
      intro X rem ro so Y hofs hlenX hsized hsz hsome
      rw [mergeLoop] at hsome
      by_cases hso : so < src.sequences
      swap
      · rw [if_neg hso] at hsome
        cases hsome
        exact ⟨hsized, hsz⟩
      rw [if_pos hso] at hsome
      simp only [] at hsome
      set q := makeBatch em (rem.length + (min (so + bs) src.sequences - so))
        rem ro so (min (so + bs) src.sequences) X.sequences [] with hq
      set X1 : DynamicGBWT := { X with header := { X.header with
        sequences := X.header.sequences + q.1.length } } with hX1
      have hX1ofs : X1.header.offset = ofs := hofs
      have hX1len : X1.bwt.length = len := hlenX
      have hX1sized : ∀ r2 ∈ X1.bwt, recordSized r2 := hsized
      have hX1sz : X1.header.size = sizesTotal X1 := hsz
      have hseqs : ∀ s ∈ q.1, (s.curr = 0 ∨ s.curr - ofs < len) ∧
          (s.next = 0 ∨ s.next - ofs < len) := by
        intro s hs
        rcases makeBatch_spec em _ _ _ _ _ _ _ s hs with hmem | ⟨hc, hn⟩
        · cases hmem
        · refine ⟨Or.inl hc, ?_⟩
          rcases hn with h0 | ⟨e, hemem, hse⟩
          · exact Or.inl h0
          · rcases hem with hin | hdef
            · refine hsig s.next ?_
              rw [hse]
              exact hsrc em hin e hemem
            · rw [hdef] at hemem
              cases hemem
      have hap : ∀ (l : List Sequence) (s : Sequence),
          s ∈ advancePositionIndex src l →
          (∃ s0 ∈ l, s.curr = s0.next) ∧ (s.next = 0 ∨ s.next - ofs < len) := by
        intro l s hs
        rcases advancePositionIndex_spec src l s hs with ⟨hex, hnx⟩
        refine ⟨hex, ?_⟩
        rcases hnx with h0 | ⟨r2, hr2, e, hemem, hse⟩
        · exact Or.inl h0
        · refine hsig s.next ?_
          rw [hse]
          exact hsrc r2 hr2 e hemem
      rcases hloop : insertLoop (nextPositionIndex src)
          (advancePositionIndex src) (src.size + 1) X1 q.1 0 with _ | r
      · rw [hloop] at hsome
        cases hsome
      · rw [hloop] at hsome
        rcases insertLoop_sizeInv (nextPositionIndex src)
            (advancePositionIndex src) ofs len hlen
            (nextPositionIndex_cn src) hap _ X1 q.1 0 r
            hX1ofs hX1len hX1sized hX1sz hseqs hloop with ⟨h1, h2, h3, h4⟩
        exact ih r.2 q.2.1 q.2.2.1 q.2.2.2.1 Y h3 h4 h1 h2 hsome


theorem mergeGBWT_sizeInv (X src : DynamicGBWT) (bs : Nat) (Y : DynamicGBWT)
    (hwfX : wfIndex X) (hszX : sizeInvariant X) (hwfS : wfIndex src)
    (hszS : sizeInvariant src)
    (hres : X.mergeGBWT src bs = some Y) : sizeInvariant Y := by
  rw [DynamicGBWT.mergeGBWT] at hres
  by_cases hS : src.isEmptyIndex
  · rw [if_pos hS] at hres
    cases hres
    exact hszX
  rw [if_neg hS] at hres
  by_cases hX : X.isEmptyIndex
  · rw [if_pos hX] at hres
    cases hres
    exact hszS
  rw [if_neg hX] at hres
  simp only [] at hres
  rcases hr1 : X.resize src.header.offset src.sigma with _ | X1
  · rw [hr1] at hres
    cases hres
  rw [hr1] at hres
  simp only [] at hres
  rcases resize_sizeInv _ _ _ _ hr1 hwfX.1 hszX.1 with
    ⟨h1sized, h1tot, h1size, h1sig, h1len, h1ok, _⟩
  have h1sz : X1.header.size = sizesTotal X1 := by
    rw [h1size, h1tot]
    exact hszX.2.1
  have hsigX : 0 < X.sigma := by
    have hXne : X.size ≠ 0 := by
      simpa [DynamicGBWT.isEmptyIndex] using hX
    exact hwfX.2.2.2 (Nat.pos_of_ne_zero hXne)
  have hsigle : X.sigma ≤ X1.header.alphabet_size := by
    rw [h1sig, adjSigma_eq_max]
    exact Nat.le_max_left _ _
  have hsrcle : src.sigma ≤ X1.header.alphabet_size := by
    rw [h1sig, adjSigma_eq_max]
    exact Nat.le_max_right _ _
  have heff1 : X1.effective = X1.header.alphabet_size - X1.header.offset := rfl
  have hlen1 : 0 < X1.bwt.length := by omega
  have hsig : ∀ v, v < src.sigma →
      v = 0 ∨ v - X1.header.offset < X1.bwt.length := by
    intro v hv
    by_cases h0 : v = 0
    · exact Or.inl h0
    · right
      omega
  rcases hr2 : mergeLoop src (src.record ENDMARKER)
      (if bs = 0 then src.sequences else bs) (src.sequences + 1) X1
      (src.record ENDMARKER).body 0 0 with _ | X2
  · rw [hr2] at hres
    cases hres
  rw [hr2] at hres
  cases hres
  rcases mergeLoop_sizeInv src (src.record ENDMARKER)
      (if bs = 0 then src.sequences else bs) X1.header.offset X1.bwt.length
      hlen1 (record_mem_or_default src ENDMARKER) hwfS.2.2.1 hsig
      _ X1 (src.record ENDMARKER).body 0 0 X2 rfl rfl h1sized h1sz hr2 with
    ⟨h2sized, h2sz⟩
  rcases recodeAll_inv X2 h2sized with ⟨hrec1, hrec2, hrec3⟩
  refine sizeInvariant_mk _ hrec1 ?_
  rw [congrArg GBWTHeader.size hrec3, hrec2]
  exact h2sz


theorem byteCodeRead_writeGo :
    ∀ (fuel v : Nat) (rest : List Nat), v ≤ fuel →
      byteCodeRead (byteCodeWriteGo fuel v ++ rest) = some (v, rest) := by
  intro fuel
  induction fuel with
  | zero =>
      intro v rest hv
      have hv0 : v = 0 := Nat.le_zero.mp hv
      subst hv0
      rfl
  | succ f ih =>
      intro v rest hv
      rw [byteCodeWriteGo]
      by_cases hlt : v < 128
      · rw [if_pos hlt]
        have h1 : ([v] ++ rest) = v :: rest := rfl
        rw [h1, byteCodeRead, if_pos hlt]
      · rw [if_neg hlt]
        have h1 : ((v % 128 + 128) :: byteCodeWriteGo f (v / 128)) ++ rest
            = (v % 128 + 128) :: (byteCodeWriteGo f (v / 128) ++ rest) := rfl
        rw [h1, byteCodeRead, if_neg (by omega),
          ih (v / 128) rest (by omega)]
        simp only []
        have h2 : v % 128 + 128 - 128 + 128 * (v / 128) = v := by omega
        rw [h2]

theorem byteCodeRead_write (v : Nat) (rest : List Nat) :
    byteCodeRead (byteCodeWrite v ++ rest) = some (v, rest) :=
  byteCodeRead_writeGo v v rest (Nat.le_refl v)

theorem byteCodeWriteGo_ne_nil (fuel v : Nat) : byteCodeWriteGo fuel v ≠ [] := by
  cases fuel with
  | zero => simp [byteCodeWriteGo]
  | succ f =>
      rw [byteCodeWriteGo]
      split
      · simp
      · simp

theorem runWrite_ne_nil (sg : Nat) (run : Nat × Nat) : runWrite sg run ≠ [] := by
  unfold runWrite
  split
  · exact byteCodeWriteGo_ne_nil _ _
  split
  · intro h
    exact byteCodeWriteGo_ne_nil _ _ (List.append_eq_nil.mp h).1
  split
  · simp
  · simp

theorem runRead_runWrite (sg : Nat) (run : Nat × Nat) (rest : List Nat)
    (h1 : run.1 < sg) (h2 : 1 ≤ run.2) :
    runRead sg (runWrite sg run ++ rest) = some (run, rest) := by
  rcases run with ⟨c, l⟩
  simp only [] at h1 h2
  unfold runWrite runRead
  by_cases hs1 : sg = 1
  · rw [if_pos hs1, if_pos hs1]
    rw [byteCodeRead_write]
    simp only []
    have hc : c = 0 := by omega
    have hl : l - 1 + 1 = l := by omega
    rw [hc, hl]
  rw [if_neg hs1, if_neg hs1]
  by_cases h256 : 256 / sg = 0
  · rw [if_pos h256, if_pos h256]
    rw [List.append_assoc, byteCodeRead_write]
    simp only []
    rw [byteCodeRead_write]
    simp only []
    have hl : l - 1 + 1 = l := by omega
    rw [hl]
  rw [if_neg h256, if_neg h256]
  have hsgpos : 0 < sg := by
    by_contra h0
    have hz : sg = 0 := by omega
    subst hz
    exact h256 (Nat.div_zero 256)
  have h256pos : 0 < 256 / sg := Nat.pos_of_ne_zero h256
  by_cases hllt : l < 256 / sg
  · rw [if_pos hllt]
    have hb : ([c + sg * (l - 1)] ++ rest) = (c + sg * (l - 1)) :: rest := rfl
    rw [hb]
    simp only []
    have hb1 : (c + sg * (l - 1)) % sg = c := by
      rw [Nat.add_mul_mod_self_left]
      exact Nat.mod_eq_of_lt h1
    have hb2 : (c + sg * (l - 1)) / sg + 1 = l := by
      rw [Nat.add_mul_div_left _ _ hsgpos, Nat.div_eq_of_lt h1]
      omega
    rw [hb1, hb2, if_pos hllt]
  · rw [if_neg hllt]
    have hb : ((c + sg * (256 / sg - 1)) :: byteCodeWrite (l - 256 / sg)) ++ rest
        = (c + sg * (256 / sg - 1)) :: (byteCodeWrite (l - 256 / sg) ++ rest) :=
      rfl
    rw [hb]
    simp only []
    have hb1 : (c + sg * (256 / sg - 1)) % sg = c := by
      rw [Nat.add_mul_mod_self_left]
      exact Nat.mod_eq_of_lt h1
    have hb2 : (c + sg * (256 / sg - 1)) / sg + 1 = 256 / sg := by
      rw [Nat.add_mul_div_left _ _ hsgpos, Nat.div_eq_of_lt h1]
      omega
    rw [hb1, hb2, if_neg (Nat.lt_irrefl _), byteCodeRead_write]
    simp only []
    rw [Nat.add_sub_cancel' (Nat.le_of_not_lt hllt)]

theorem decodeBody_nil (sg : Nat) : ∀ fuel, decodeBody sg fuel [] = []
  | 0 => rfl
  | _ + 1 => rfl

theorem decodeBody_encode (sg : Nat) :
    ∀ (body : List (Nat × Nat)),
      (∀ run ∈ body, run.1 < sg ∧ 1 ≤ run.2) →
      ∀ (fuel : Nat), ((body.map (runWrite sg)).flatten).length ≤ fuel →
      decodeBody sg fuel ((body.map (runWrite sg)).flatten) = body := by
  intro body
  induction body with
  | nil =>
      intro _ fuel _
      exact decodeBody_nil sg fuel
  | cons run rest ih =>
      intro hruns fuel hfuel
      simp only [List.map_cons, List.flatten_cons] at hfuel ⊢
      have hw := runWrite_ne_nil sg run
      have hlen1 : 1 ≤ (runWrite sg run).length := by
        rcases hrw : runWrite sg run with _ | ⟨b, bs⟩
        · exact absurd hrw hw
        · simp
      rcases fuel with _ | f
      · exfalso
        rw [List.length_append] at hfuel
        omega
      · have hbytes : ∃ b bs, runWrite sg run ++
            (rest.map (runWrite sg)).flatten = b :: bs := by
          rcases hrw : runWrite sg run with _ | ⟨b, bs⟩
          · exact absurd hrw hw
          · exact ⟨b, bs ++ (rest.map (runWrite sg)).flatten, rfl⟩
        rcases hbytes with ⟨b, bs, hb⟩
        have hred : decodeBody sg (f + 1)
            (runWrite sg run ++ (rest.map (runWrite sg)).flatten)
            = match runRead sg (runWrite sg run ++
                (rest.map (runWrite sg)).flatten) with
              | none => []
              | some (q, rst) => q :: decodeBody sg f rst := by
          rw [hb]
          exact rfl
        rw [hred]
        rw [runRead_runWrite sg run _ (hruns run (List.mem_cons_self _ _)).1
          (hruns run (List.mem_cons_self _ _)).2]
        simp only []
        congr 1
        refine ih (fun q hq => hruns q (List.mem_cons_of_mem _ hq)) f ?_
        rw [List.length_append] at hfuel
        omega

theorem readEdges_roundtrip :
    ∀ (edges : List (Nat × Nat)) (rest : List Nat),
      readEdges edges.length
        ((edges.map (fun e => byteCodeWrite e.1 ++ byteCodeWrite e.2)).flatten
          ++ rest) = (edges, rest) := by
  intro edges
  induction edges with
  | nil => intro rest; simp [readEdges]
  | cons e es ih =>
      intro rest
      simp only [List.map_cons, List.flatten_cons, List.length_cons]
      rw [readEdges]
      rw [List.append_assoc, List.append_assoc]
      have h1 : byteCodeReadD (byteCodeWrite e.1 ++ (byteCodeWrite e.2 ++
          ((es.map (fun e => byteCodeWrite e.1 ++ byteCodeWrite e.2)).flatten
            ++ rest))) = (e.1, byteCodeWrite e.2 ++
          ((es.map (fun e => byteCodeWrite e.1 ++ byteCodeWrite e.2)).flatten
            ++ rest)) := by
        unfold byteCodeReadD
        rw [byteCodeRead_write]
        rfl
      rw [h1]
      simp only []
      have h2 : byteCodeReadD (byteCodeWrite e.2 ++
          ((es.map (fun e => byteCodeWrite e.1 ++ byteCodeWrite e.2)).flatten
            ++ rest)) = (e.2,
          (es.map (fun e => byteCodeWrite e.1 ++ byteCodeWrite e.2)).flatten
            ++ rest) := by
        unfold byteCodeReadD
        rw [byteCodeRead_write]
        rfl
      rw [h2]
      simp only []
      rw [ih rest]

theorem decodeRecord_encode (r : DynamicRecord) (hr : recordRuns r) :
    decodeRecord (encodeRecord r) =
      { body_size := runsTotal r.body, body := r.body,
        incoming := [], outgoing := r.outgoing } := by
  unfold encodeRecord decodeRecord
  rw [List.append_assoc]
  have h1 : byteCodeReadD (byteCodeWrite r.outdegree ++
      ((r.outgoing.map (fun e => byteCodeWrite e.1 ++ byteCodeWrite e.2)).flatten
        ++ (if r.outdegree > 0 then (r.body.map (runWrite r.outdegree)).flatten
            else []))) = (r.outdegree,
      (r.outgoing.map (fun e => byteCodeWrite e.1 ++ byteCodeWrite e.2)).flatten
        ++ (if r.outdegree > 0 then (r.body.map (runWrite r.outdegree)).flatten
            else [])) := by
    unfold byteCodeReadD
    rw [byteCodeRead_write]
    rfl
  rw [h1]
  simp only []
  have hdeg : r.outdegree = r.outgoing.length := rfl
  rw [hdeg, readEdges_roundtrip]
  simp only []
  rw [← hdeg]
  by_cases hd : r.outdegree > 0
  · rw [if_pos hd, if_pos hd]
    rw [decodeBody_encode r.outdegree r.body hr _ (Nat.le_refl _)]
    rfl
  · have hbody : r.body = [] := by
      rcases hb : r.body with _ | ⟨run, rest⟩
      · rfl
      · exfalso
        have := (hr run (by rw [hb]; exact List.mem_cons_self _ _)).1
        omega
    simp only [if_neg hd]
    rw [hbody]
    rfl


theorem flatten_drop_sum (chunks : List (List Nat)) :
    ∀ i, chunks.flatten.drop (((chunks.take i).map List.length).sum) =
      (chunks.drop i).flatten := by
  induction chunks with
  | nil => intro i; simp
  | cons c cs ih =>
      intro i
      cases i with
      | zero => simp
      | succ j =>
          simp only [List.take_succ_cons, List.map_cons, List.sum_cons,
            List.flatten_cons, List.drop_succ_cons]
          rw [← List.drop_drop, List.drop_left]
          exact ih j

theorem chunkStarts_getD (chunks : List (List Nat)) (i : Nat)
    (h : i < chunks.length) :
    (chunkStarts chunks).getD i 0 = ((chunks.take i).map List.length).sum := by
  unfold chunkStarts
  rw [List.getD_eq_getElem _ _ (by simpa using h)]
  simp

theorem flatten_slice (chunks : List (List Nat)) (i : Nat)
    (h : i < chunks.length) :
    (chunks.flatten.drop (((chunks.take i).map List.length).sum)).take
      ((chunks.getD i []).length) = chunks.getD i [] := by
  rw [flatten_drop_sum, List.drop_eq_getElem_cons h, List.flatten_cons,
    List.getD_eq_getElem _ _ h]
  exact List.take_left _ _

theorem take_succ_sum (chunks : List (List Nat)) (i : Nat)
    (h : i < chunks.length) :
    ((chunks.take (i + 1)).map List.length).sum =
      ((chunks.take i).map List.length).sum + (chunks.getD i []).length := by
  have hm : i < (chunks.map List.length).length := by simpa using h
  rw [List.getD_eq_getElem _ _ h, List.map_take, List.map_take,
    List.take_succ, List.getElem?_eq_getElem hm]
  simp

theorem map_eq_range_map {α β : Type} (g : α → β) (d : α) (l : List α) :
    l.map g = (List.range l.length).map (fun i => g (l.getD i d)) := by
  refine List.ext_getElem (by simp) ?_
  intro i h1 h2
  simp only [List.getElem_map, List.getElem_range]
  rw [List.getD_eq_getElem _ _ (by simpa using h1)]

theorem foldl_bd {γ : Type} (step : DynamicGBWT → γ → DynamicGBWT)
    (hstep : ∀ Z ie, (step Z ie).bwt.map recBodyData = Z.bwt.map recBodyData ∧
      (step Z ie).header = Z.header) :
    ∀ (l : List γ) (Z : DynamicGBWT),
      (l.foldl step Z).bwt.map recBodyData = Z.bwt.map recBodyData ∧
      (l.foldl step Z).header = Z.header := by
  intro l
  induction l with
  | nil => intro Z; exact ⟨rfl, rfl⟩
  | cons a rest ih =>
      intro Z
      rw [List.foldl_cons]
      rcases ih (step Z a) with ⟨h1, h2⟩
      rcases hstep Z a with ⟨h3, h4⟩
      exact ⟨h1.trans h3, h2.trans h4⟩

theorem rebuildIncoming_bodyData (X : DynamicGBWT) :
    X.rebuildIncoming.bwt.map recBodyData = X.bwt.map recBodyData ∧
    X.rebuildIncoming.header = X.header := by
  unfold DynamicGBWT.rebuildIncoming
  refine foldl_bd _ ?_ _ _
  intro Z c
  show ((List.range (Z.bwt.getD c default).outdegree).foldl _ Z).bwt.map
      recBodyData = Z.bwt.map recBodyData ∧
    ((List.range (Z.bwt.getD c default).outdegree).foldl _ Z).header = Z.header
  refine foldl_bd _ ?_ _ _
  intro Z2 k
  split
  · constructor
    · simp only [DynamicGBWT.setRecord]
      exact set_map_same recBodyData default _ _ _ rfl
    · rfl
  · exact ⟨rfl, rfl⟩

theorem load_serialize_sizeInv (X : DynamicGBWT)
    (hlenX : X.bwt.length = X.effective)
    (hsized : ∀ q ∈ X.bwt, recordSized q)
    (hruns : ∀ q ∈ X.bwt, recordRuns q)
    (hsz : X.header.size = sizesTotal X) :
    (∀ q ∈ (DynamicGBWT.loadGBWT (DynamicGBWT.serializeGBWT X)).bwt,
      recordSized q) ∧
    (DynamicGBWT.loadGBWT (DynamicGBWT.serializeGBWT X)).header.size =
      sizesTotal (DynamicGBWT.loadGBWT (DynamicGBWT.serializeGBWT X)) := by
  set S := DynamicGBWT.serializeGBWT X with hS
  set chunks := (List.range X.effective).map
    (fun c => encodeRecord (X.bwt.getD c default)) with hchunks
  have hSheader : S.header = X.header := rfl
  have hchlen : chunks.length = X.effective := by
    rw [hchunks]
    simp
  have hchget : ∀ c, c < X.effective →
      chunks.getD c [] = encodeRecord (X.bwt.getD c default) := by
    intro c hc
    rw [hchunks, List.getD_eq_getElem _ _ (by simpa using hc)]
    simp
  set recs := (List.range X.effective).map (fun c => decodeRecord
    ((S.bytes.drop (S.offsets.getD c 0)).take
      ((if c + 1 < X.effective then S.offsets.getD (c + 1) 0
        else S.bytes.length) - S.offsets.getD c 0))) with hrecs
  have hload : DynamicGBWT.loadGBWT S =
      DynamicGBWT.rebuildIncoming { header := S.header, bwt := recs } := rfl
  have hdecsized : ∀ chunk, recordSized (decodeRecord chunk) := by
    intro chunk
    unfold decodeRecord
    rcases byteCodeReadD chunk with ⟨d, b1⟩
    rcases readEdges d b1 with ⟨out, b2⟩
    exact rfl
  have hslice : ∀ c, c < X.effective →
      (S.bytes.drop (S.offsets.getD c 0)).take
        ((if c + 1 < X.effective then S.offsets.getD (c + 1) 0
          else S.bytes.length) - S.offsets.getD c 0)
        = encodeRecord (X.bwt.getD c default) := by
    intro c hc
    have hcch : c < chunks.length := by rw [hchlen]; exact hc
    have hstart : S.offsets.getD c 0 = ((chunks.take c).map List.length).sum :=
      chunkStarts_getD chunks c hcch
    have hbytes : S.bytes = chunks.flatten := rfl
    have hstop : (if c + 1 < X.effective then S.offsets.getD (c + 1) 0
        else S.bytes.length)
        = ((chunks.take c).map List.length).sum + (chunks.getD c []).length := by
      by_cases hc1 : c + 1 < X.effective
      · rw [if_pos hc1]
        have : S.offsets.getD (c + 1) 0 =
            ((chunks.take (c + 1)).map List.length).sum :=
          chunkStarts_getD chunks (c + 1) (by rw [hchlen]; exact hc1)
        rw [this, take_succ_sum chunks c hcch]
      · rw [if_neg hc1]
        have hceq : c + 1 = chunks.length := by rw [hchlen]; omega
        have htot : S.bytes.length = ((chunks.take (c + 1)).map List.length).sum := by
          rw [hbytes, hceq, List.take_length, List.length_flatten]
        rw [htot, take_succ_sum chunks c hcch]
    rw [hstart, hstop, hbytes]
    have harith : ((chunks.take c).map List.length).sum +
        (chunks.getD c []).length - ((chunks.take c).map List.length).sum =
        (chunks.getD c []).length := by omega
    rw [harith, flatten_slice chunks c hcch, hchget c hc]
  have hrecsbd : recs.map recBodyData = X.bwt.map recBodyData := by
    rw [map_eq_range_map recBodyData default X.bwt, hlenX, hrecs,
      List.map_map]
    refine List.map_congr_left ?_
    intro c hc
    have hceff : c < X.effective := List.mem_range.mp hc
    have hcl : c < X.bwt.length := by omega
    show recBodyData (decodeRecord _) = recBodyData (X.bwt.getD c default)
    rw [hslice c hceff,
      decodeRecord_encode _ (hruns _ (getD_mem_of_lt _ _ _ hcl))]
    unfold recBodyData
    simp only []
    rw [← hsized _ (getD_mem_of_lt _ _ _ hcl)]
  rcases rebuildIncoming_bodyData { header := S.header, bwt := recs } with
    ⟨hb, hh⟩
  constructor
  · rw [hload]
    refine sized_transfer _ _ hb ?_
    show ∀ r ∈ recs, recordSized r
    intro r hr
    rw [hrecs] at hr
    rcases List.mem_map.mp hr with ⟨c, _, hre⟩
    rw [← hre]
    exact hdecsized _
  · rw [hload, congrArg GBWTHeader.size hh]
    show X.header.size = sizesTotal _
    have hst : sizesTotal (DynamicGBWT.rebuildIncoming
        { header := S.header, bwt := recs }) = sizesTotal X := by
      unfold sizesTotal
      refine sizes_of_bodyData _ _ ?_
      exact hb.trans hrecsbd
    rw [hst]
    exact hsz


/-- Claim C7: invariant I7 after every public mutation.  Inserting a text,
merging another index and loading a serialized index each leave
`header.size` equal to the sum of the stored record sizes, which in turn
equals the sum of all run lengths in all record bodies (the `sizeInvariant`
conjunction).  Insert needs the record table to cover the effective
alphabet; merge needs both indices well-formed; load needs the bodies
serializable (valid ranks, positive run lengths). -/
theorem i7_preserved :
    (∀ (X : DynamicGBWT) (text : List Nat) (Y : DynamicGBWT),
      X.bwt.length = X.effective → sizeInvariant X →
      X.insertText text = some Y → sizeInvariant Y) ∧
    (∀ (X src : DynamicGBWT) (bs : Nat) (Y : DynamicGBWT),
      wfIndex X → sizeInvariant X → wfIndex src → sizeInvariant src →
      X.mergeGBWT src bs = some Y → sizeInvariant Y) ∧
    (∀ (X : DynamicGBWT),
      X.bwt.length = X.effective → sizeInvariant X →
      (∀ r ∈ X.bwt, recordRuns r) →
      sizeInvariant (DynamicGBWT.loadGBWT (DynamicGBWT.serializeGBWT X))) := by
  refine ⟨?_, ?_, ?_⟩
  · intro X text Y hlen hinv hres
    rcases insertText_sizeInv X text Y hlen hinv.1 hinv.2.1 hres with ⟨h1, h2⟩
    exact sizeInvariant_mk Y h1 h2
  · intro X src bs Y hwfX hinvX hwfS hinvS hres
    exact mergeGBWT_sizeInv X src bs Y hwfX hinvX hwfS hinvS hres
  · intro X hlen hinv hruns
    rcases load_serialize_sizeInv X hlen hinv.1 hruns hinv.2.1 with ⟨h1, h2⟩
    exact sizeInvariant_mk _ h1 h2

/-- Witness for C7: inserting the text 1, 0 into the empty index satisfies
the hypotheses of the insert clause, and the resulting index satisfies the
size invariant. -/
theorem i7_preserved_w :
    ({} : DynamicGBWT).bwt.length = ({} : DynamicGBWT).effective ∧
    sizeInvariant ({} : DynamicGBWT) ∧
    ({} : DynamicGBWT).insertText [1, 0] =
      some ((({} : DynamicGBWT).insertText [1, 0]).getD {}) ∧
    sizeInvariant ((({} : DynamicGBWT).insertText [1, 0]).getD {}) :=
  ⟨rfl, by decide, by decide,
   i7_preserved.1 {} [1, 0] ((({} : DynamicGBWT).insertText [1, 0]).getD {})
     rfl (by decide) (by decide)⟩


end GBWT
